import Mathlib

/-!
# DCIM landing page: scroll-to-frame animator and frame preloader

A shallow embedding of the logic of `src/App.jsx`:

* the module-level `frames` table (lines 5-10),
* the scroll effect: the `change` handler, the scheduled callback and the
  effect cleanup (lines 19-43),
* the preload effect with its `onload` handler (lines 45-60),
* the render-time lookup `frames[currentFrame]` (line 75).

Scroll progress is a JavaScript number, that is, a binary64 value. Finite
binary64 values are rationals, so the model computes on `ℚ`: the product
`latest * totalFrames` is the exact product rounded to the nearest binary64
value, `Math.floor` is the integer floor and `Math.min` is `min` on `ℤ`.
The browser's animation-frame scheduler is modelled by a queue of pending
callbacks, each identified by the handle that `requestAnimationFrame`
returned and carrying the `latest` value its closure captured.
-/

namespace DCIM

/-! ## The frame table -/

/-- Number of frames, `const totalFrames = 240`. -/
def totalFrames : ℕ := 240

/-- The method `String.prototype.padStart(targetLength, fill)` for a
one-character filler: the filler is repeated in front of `s` until the result
has `targetLength` characters; a string that is already long enough is
returned as it is. -/
def padStart (s : String) (targetLength : ℕ) (fill : Char) : String :=
  String.mk (List.replicate (targetLength - s.length) fill) ++ s

/-- The directory and file stem shared by all frame paths. -/
def frameBase : String := "/ezgif-59835d4e34a6e4b3-jpg/ezgif-frame-"

/-- The mapping function handed to `Array.from`: the path of the frame with
internal index `i`. -/
def frameUrl (i : ℕ) : String :=
  let frameNum := padStart (toString (i + 1)) 3 '0'
  frameBase ++ frameNum ++ ".jpg"

/-- The table `frames = Array.from({ length: totalFrames }, (_, i) => ...)`. -/
def frames : List String := (List.range totalFrames).map frameUrl

/-- The render-time lookup `frames[currentFrame]`: an array read at an
integer outside `0 .. length - 1` yields `undefined`, here `none`. -/
def frameAt (i : ℤ) : Option String :=
  if 0 ≤ i then frames[i.toNat]? else none

/-- Three decimal digits of `n`, hundreds first: what the naming scheme calls
the number left-padded with zeros to three characters. Written from the
description of the naming scheme, to be compared with `padStart`. -/
def threeDigits (n : ℕ) : String :=
  String.mk [Nat.digitChar (n / 100), Nat.digitChar (n / 10 % 10), Nat.digitChar (n % 10)]

/-! ## Binary64 arithmetic -/

/-- Rounding of a rational to the nearest integer, a tie going to the even
neighbour. -/
def roundHalfEven (y : ℚ) : ℤ :=
  if y - ⌊y⌋ < 1 / 2 then ⌊y⌋
  else if 1 / 2 < y - ⌊y⌋ then ⌊y⌋ + 1
  else if ⌊y⌋ % 2 = 0 then ⌊y⌋ else ⌊y⌋ + 1

/-- Rounding of a positive rational `x` to 53 significant bits: with
`2 ^ e ≤ x < 2 ^ (e + 1)` the spacing of the representable values around `x`
is `2 ^ (e - 52)`, and `x` goes to the nearest multiple of it, ties to even. -/
def roundPos (x : ℚ) : ℚ :=
  (roundHalfEven (x / 2 ^ (Int.log 2 x - 52)) : ℚ) * 2 ^ (Int.log 2 x - 52)

/-- Rounding to nearest, ties to even, with the 53-bit significand of
binary64. The exponent range is not modelled: overflow to an infinity is not
represented, and the value is the binary64 one whenever that is finite and no
underflow occurs, as is the case for the product of a binary64 value and
`240`. -/
def roundBinary64 (x : ℚ) : ℚ :=
  if 0 < x then roundPos x else if x < 0 then -roundPos (-x) else 0

/-- The JavaScript product `a * b` of two numbers: the exact product rounded
to binary64. -/
def mulBinary64 (a b : ℚ) : ℚ :=
  roundBinary64 (a * b)

/-- The finite binary64 values: a 53-bit significand, magnitude below
`2 ^ 1024`, and a multiple of the least subnormal `2 ^ (-1074)`. -/
def IsBinary64 (x : ℚ) : Prop :=
  roundBinary64 x = x ∧ |x| < 2 ^ 1024 ∧ ((⌊x * 2 ^ 1074⌋ : ℤ) : ℚ) = x * 2 ^ 1074

/-- The JavaScript number written `0.7`. -/
def binary64_0_7 : ℚ := 3152519739159347 / 2 ^ 52

/-- The JavaScript number written `0.3`. -/
def binary64_0_3 : ℚ := 5404319552844595 / 2 ^ 54

/-- The JavaScript number written `0.1`. -/
def binary64_0_1 : ℚ := 3602879701896397 / 2 ^ 55

/-- The JavaScript number written `0.999999`. -/
def binary64_0_999999 : ℚ := 9007190247541737 / 2 ^ 53

/-! ## The frame index -/

/-- The value `Math.min(Math.floor(latest * totalFrames), totalFrames - 1)`
computed inside the scheduled callback; the product is the binary64 one. -/
def frameIndex (latest : ℚ) : ℤ :=
  min ⌊mulBinary64 latest (totalFrames : ℚ)⌋ ((totalFrames : ℤ) - 1)

/-! ## Component state -/

/-- State of one mounted `App` together with the part of the browser it talks
to. `rafRef` is `rafRef.current` (`none` for `null`); `pending` is the
scheduler's queue of callbacks not yet run, each with its handle and the
`latest` captured by the closure; `nextHandle` is the handle the scheduler
hands out next; `subscribed` tells whether the `change` listener is still
attached; `loadedCount` is the local counter of the preload effect.
`frameUpdates` counts the calls of `setCurrentFrame` and exists only so that
theorems can speak about how many updates were applied. -/
structure AppState where
  currentFrame : ℤ
  isLoading : Bool
  rafRef : Option ℕ
  subscribed : Bool
  nextHandle : ℕ
  pending : List (ℕ × ℚ)
  loadedCount : ℕ
  frameUpdates : ℕ
deriving DecidableEq

/-- State right after mounting: `useState(0)`, `useState(true)`,
`useRef(null)`, both effects have run, no callback is scheduled, and the
scheduler will hand out `firstHandle` next. -/
def mount (firstHandle : ℕ) : AppState where
  currentFrame := 0
  isLoading := true
  rafRef := none
  subscribed := true
  nextHandle := firstHandle
  pending := []
  loadedCount := 0
  frameUpdates := 0

/-- The call `cancelAnimationFrame(h)`: the callback with handle `h`, if it
is still queued, is dropped. -/
def cancelAnimationFrame (h : ℕ) (s : AppState) : AppState :=
  { s with pending := s.pending.filter (fun cb => cb.1 != h) }

/-- The call `requestAnimationFrame(cb)` where `cb` has captured `latest`:
the callback is queued under a new handle, which is returned. -/
def requestAnimationFrame (latest : ℚ) (s : AppState) : ℕ × AppState :=
  (s.nextHandle,
    { s with pending := s.pending ++ [(s.nextHandle, latest)],
             nextHandle := s.nextHandle + 1 })

/-- The call `setCurrentFrame(v)`. -/
def setCurrentFrame (v : ℤ) (s : AppState) : AppState :=
  { s with currentFrame := v, frameUpdates := s.frameUpdates + 1 }

/-- The guarded cancellation `if (rafRef.current) cancelAnimationFrame(rafRef.current)`,
shared by the handler and the cleanup. The test is JavaScript truthiness:
`null` and the number `0` are both false. -/
def cancelPending (s : AppState) : AppState :=
  match s.rafRef with
  | some h => if h ≠ 0 then cancelAnimationFrame h s else s
  | none => s

/-- The `change` handler of `scrollYProgress` (lines 21-35). -/
def onChange (latest : ℚ) (s : AppState) : AppState :=
  let s1 := cancelPending s
  let r := requestAnimationFrame latest s1
  { r.2 with rafRef := some r.1 }

/-- Body of the scheduled callback (lines 28-34). -/
def scheduledUpdate (latest : ℚ) (s : AppState) : AppState :=
  setCurrentFrame (frameIndex latest) s

/-- One paint opportunity: the scheduler runs every queued callback in the
order of scheduling and empties its queue. -/
def paint (s : AppState) : AppState :=
  s.pending.foldl (fun acc cb => scheduledUpdate cb.2 acc) { s with pending := [] }

/-- The effect cleanup (lines 37-42): `unsubscribe()` and the guarded
cancellation. -/
def cleanup (s : AppState) : AppState :=
  cancelPending { s with subscribed := false }

/-- The bound `totalToLoad = frames.length` of the preload effect. -/
def totalToLoad : ℕ := frames.length

/-- The `img.onload` handler (lines 52-57). -/
def onload (s : AppState) : AppState :=
  let s1 := { s with loadedCount := s.loadedCount + 1 }
  if s1.loadedCount = totalToLoad then { s1 with isLoading := false } else s1

/-- What can happen to a mounted component: the scroll source delivers a
progress value, the browser reaches a paint opportunity, the component is
torn down, or the load of image `i` resolves, with success (`ok = true`) or
with failure. -/
inductive Event where
  | progress (p : ℚ)
  | paint
  | teardown
  | load (i : ℕ) (ok : Bool)
deriving DecidableEq

/-- Reaction to one event. A progress value reaches the handler only while
the listener is attached. Each `Image` gets an `onload` handler and nothing
else, so a failed load runs no code of the component. -/
def step (s : AppState) : Event → AppState
  | .progress p => if s.subscribed then onChange p s else s
  | .paint => paint s
  | .teardown => cleanup s
  | .load _ true => onload s
  | .load _ false => s

/-- Reaction to a sequence of events, oldest first. -/
def run (s : AppState) (evs : List Event) : AppState :=
  evs.foldl step s

/-- Indices of the images whose load has resolved, in order of resolution. -/
def resolvedIds : List Event → List ℕ
  | [] => []
  | .load i _ :: evs => i :: resolvedIds evs
  | _ :: evs => resolvedIds evs

/-- Indices of the images whose load has resolved with success. -/
def loadedIds : List Event → List ℕ
  | [] => []
  | .load i true :: evs => i :: loadedIds evs
  | _ :: evs => loadedIds evs

/-- A burst of progress values as a sequence of events with no paint in
between. -/
def burst (ps : List ℚ) : List Event :=
  ps.map Event.progress

/-- All 240 images resolve once each in index order, image `bad` with
failure and every other one with success. -/
def loadsWithFailure (bad : ℕ) : List Event :=
  (List.range totalFrames).map (fun i => Event.load i (i != bad))

/-- Shape of the scheduler queue when handles are never zero: at most one
callback is queued, and it is the one `rafRef.current` names. -/
def AnimInv (s : AppState) : Prop :=
  s.nextHandle ≠ 0 ∧ s.pending.length ≤ 1 ∧
    ∀ cb ∈ s.pending, s.rafRef = some cb.1 ∧ cb.1 ≠ 0

/-- State of a component that has been torn down: the listener is detached
and the scheduler queue holds none of its callbacks. -/
def TornDown (s : AppState) : Prop :=
  s.subscribed = false ∧ s.pending = []

/-- The displayed index is in range and every queued callback has captured a
non-negative progress value. -/
def FrameInv (s : AppState) : Prop :=
  (0 ≤ s.currentFrame ∧ s.currentFrame ≤ 239) ∧ ∀ cb ∈ s.pending, 0 ≤ cb.2

/-- The loading flag is up exactly while the counter is below the bound. -/
def LoadInv (s : AppState) : Prop :=
  s.isLoading = true ↔ s.loadedCount < totalToLoad

/-- The progress values of an event sequence all lie in the unit interval. -/
def ProgressInUnit (evs : List Event) : Prop :=
  ∀ p, Event.progress p ∈ evs → 0 ≤ p ∧ p ≤ 1

/-! ## Lemmas on binary64 rounding -/

theorem floor_le_rne (y : ℚ) : ⌊y⌋ ≤ roundHalfEven y := by
  unfold roundHalfEven
  split_ifs <;> omega

theorem rne_le_floor_succ (y : ℚ) : roundHalfEven y ≤ ⌊y⌋ + 1 := by
  unfold roundHalfEven
  split_ifs <;> omega

theorem int_le_rne {y : ℚ} {n : ℤ} (h : (n : ℚ) ≤ y) : n ≤ roundHalfEven y :=
  le_trans (Int.le_floor.mpr h) (floor_le_rne y)

theorem rne_le_int {y : ℚ} {n : ℤ} (h : y ≤ (n : ℚ)) : roundHalfEven y ≤ n := by
  have hfl : ⌊y⌋ ≤ n := by
    have := Int.floor_mono h
    simpa using this
  rcases lt_or_eq_of_le hfl with hlt | heq
  · have := rne_le_floor_succ y
    omega
  · have hy : y = (n : ℚ) := le_antisymm h (by rw [← heq]; exact Int.floor_le y)
    subst hy
    simp [roundHalfEven]

theorem rne_intCast (n : ℤ) : roundHalfEven (n : ℚ) = n := by
  simp [roundHalfEven]

theorem rne_mono {y z : ℚ} (h : y ≤ z) : roundHalfEven y ≤ roundHalfEven z := by
  have hfl : ⌊y⌋ ≤ ⌊z⌋ := Int.floor_mono h
  rcases lt_or_eq_of_le hfl with hlt | heq
  · have h1 := rne_le_floor_succ y
    have h2 := floor_le_rne z
    omega
  · have hsub : y - ⌊y⌋ ≤ z - ⌊z⌋ := by rw [heq]; linarith
    unfold roundHalfEven
    rw [heq]
    rw [heq] at hsub
    split_ifs <;> first | omega | (exfalso; linarith)

theorem rne_eq_of_abs_lt {y : ℚ} {n : ℤ} (h : |y - n| < 1 / 2) : roundHalfEven y = n := by
  rw [abs_lt] at h
  obtain ⟨h1, h2⟩ := h
  by_cases hc : (n : ℚ) ≤ y
  · have hf : ⌊y⌋ = n := Int.floor_eq_iff.mpr ⟨hc, by linarith⟩
    unfold roundHalfEven
    rw [hf, if_pos (by linarith)]
  · push_neg at hc
    have hf : ⌊y⌋ = n - 1 := Int.floor_eq_iff.mpr ⟨by push_cast; linarith, by push_cast; linarith⟩
    unfold roundHalfEven
    rw [hf, if_neg (by push_cast; linarith), if_pos (by push_cast; linarith)]
    omega

theorem two_zpow_pos (e : ℤ) : (0 : ℚ) < 2 ^ e := zpow_pos (by norm_num) e

theorem zpow_log_le {x : ℚ} (hx : 0 < x) : (2 : ℚ) ^ Int.log 2 x ≤ x := by
  have := Int.zpow_log_le_self (R := ℚ) (b := 2) (by norm_num) hx
  simpa using this

theorem lt_zpow_log_succ (x : ℚ) : x < (2 : ℚ) ^ (Int.log 2 x + 1) := by
  have := Int.lt_zpow_succ_log_self (R := ℚ) (b := 2) (by norm_num) x
  simpa using this

theorem log_eq_of_bounds {x : ℚ} {e : ℤ} (h1 : (2 : ℚ) ^ e ≤ x) (h2 : x < (2 : ℚ) ^ (e + 1)) :
    Int.log 2 x = e := by
  have hx : 0 < x := lt_of_lt_of_le (two_zpow_pos e) h1
  have ha : e ≤ Int.log 2 x :=
    (Int.zpow_le_iff_le_log (R := ℚ) (b := 2) (by norm_num) hx).mp (by simpa using h1)
  have hb : Int.log 2 x < e + 1 :=
    (Int.lt_zpow_iff_log_lt (R := ℚ) (b := 2) (by norm_num) hx).mp (by simpa using h2)
  omega

theorem roundPos_le_grid {x : ℚ} (_hx : 0 < x) (N : ℤ)
    (h : x ≤ (N : ℚ) * 2 ^ (Int.log 2 x - 52)) :
    roundPos x ≤ (N : ℚ) * 2 ^ (Int.log 2 x - 52) := by
  unfold roundPos
  have hs := two_zpow_pos (Int.log 2 x - 52)
  have : roundHalfEven (x / 2 ^ (Int.log 2 x - 52)) ≤ N :=
    rne_le_int ((div_le_iff₀ hs).mpr h)
  exact mul_le_mul_of_nonneg_right (by exact_mod_cast this) hs.le

theorem grid_le_roundPos {x : ℚ} (_hx : 0 < x) (N : ℤ)
    (h : (N : ℚ) * 2 ^ (Int.log 2 x - 52) ≤ x) :
    (N : ℚ) * 2 ^ (Int.log 2 x - 52) ≤ roundPos x := by
  unfold roundPos
  have hs := two_zpow_pos (Int.log 2 x - 52)
  have : N ≤ roundHalfEven (x / 2 ^ (Int.log 2 x - 52)) :=
    int_le_rne ((le_div_iff₀ hs).mpr h)
  exact mul_le_mul_of_nonneg_right (by exact_mod_cast this) hs.le

theorem scale52 (e : ℤ) : (((2 : ℤ) ^ 52 : ℤ) : ℚ) * 2 ^ (e - 52) = 2 ^ e := by
  rw [zpow_sub₀ (by norm_num : (2 : ℚ) ≠ 0)]
  norm_num
  ring

theorem scale53 (e : ℤ) : (((2 : ℤ) ^ 53 : ℤ) : ℚ) * 2 ^ (e - 52) = 2 ^ (e + 1) := by
  rw [zpow_sub₀ (by norm_num : (2 : ℚ) ≠ 0), zpow_add_one₀ (by norm_num : (2 : ℚ) ≠ 0)]
  norm_num
  ring

theorem zpow_le_roundPos {x : ℚ} (hx : 0 < x) : (2 : ℚ) ^ Int.log 2 x ≤ roundPos x := by
  have h := grid_le_roundPos hx (2 ^ 52) (by rw [scale52]; exact zpow_log_le hx)
  rw [scale52] at h
  exact h

theorem roundPos_le_zpow_succ {x : ℚ} (hx : 0 < x) :
    roundPos x ≤ (2 : ℚ) ^ (Int.log 2 x + 1) := by
  have h := roundPos_le_grid hx (2 ^ 53) (by rw [scale53]; exact (lt_zpow_log_succ x).le)
  rw [scale53] at h
  exact h

theorem roundPos_pos {x : ℚ} (hx : 0 < x) : 0 < roundPos x :=
  lt_of_lt_of_le (two_zpow_pos _) (zpow_le_roundPos hx)

theorem roundPos_mono {x y : ℚ} (hx : 0 < x) (hxy : x ≤ y) : roundPos x ≤ roundPos y := by
  have hy : 0 < y := lt_of_lt_of_le hx hxy
  have hlog : Int.log 2 x ≤ Int.log 2 y := Int.log_mono_right hx hxy
  rcases lt_or_eq_of_le hlog with hlt | heq
  · calc roundPos x ≤ (2 : ℚ) ^ (Int.log 2 x + 1) := roundPos_le_zpow_succ hx
      _ ≤ (2 : ℚ) ^ Int.log 2 y := zpow_le_zpow_right₀ (by norm_num) (by omega)
      _ ≤ roundPos y := zpow_le_roundPos hy
  · unfold roundPos
    rw [heq]
    have hs := two_zpow_pos (Int.log 2 y - 52)
    have : roundHalfEven (x / 2 ^ (Int.log 2 y - 52)) ≤ roundHalfEven (y / 2 ^ (Int.log 2 y - 52)) :=
      rne_mono (div_le_div_of_nonneg_right hxy hs.le)
    exact mul_le_mul_of_nonneg_right (by exact_mod_cast this) hs.le

theorem roundBinary64_mono {x y : ℚ} (hxy : x ≤ y) : roundBinary64 x ≤ roundBinary64 y := by
  unfold roundBinary64
  by_cases hx : 0 < x
  · have hy : 0 < y := lt_of_lt_of_le hx hxy
    rw [if_pos hx, if_pos hy]
    exact roundPos_mono hx hxy
  · rw [if_neg hx]
    by_cases hx' : x < 0
    · rw [if_pos hx']
      have hnx : 0 < -x := by linarith
      by_cases hy : 0 < y
      · rw [if_pos hy]
        have := roundPos_pos hnx
        have := roundPos_pos hy
        linarith
      · rw [if_neg hy]
        by_cases hy' : y < 0
        · rw [if_pos hy']
          have := roundPos_mono (x := -y) (y := -x) (by linarith) (by linarith)
          linarith
        · rw [if_neg hy']
          have := roundPos_pos hnx
          linarith
    · rw [if_neg hx']
      have hx0 : x = 0 := le_antisymm (not_lt.mp hx) (not_lt.mp hx')
      by_cases hy : 0 < y
      · rw [if_pos hy]
        exact (roundPos_pos hy).le
      · rw [if_neg hy, if_neg (by linarith)]

theorem log_lt_of_lt_zpow {x : ℚ} (hx : 0 < x) {z : ℤ} (h : x < (2 : ℚ) ^ z) :
    Int.log 2 x < z :=
  (Int.lt_zpow_iff_log_lt (R := ℚ) (b := 2) (by norm_num) hx).mp (by simpa using h)

theorem dyadic_scale (m t e : ℤ) (h : e - 52 ≤ t) :
    ((m * 2 ^ (t - (e - 52)).toNat : ℤ) : ℚ) * 2 ^ (e - 52) = (m : ℚ) * 2 ^ t := by
  have hd : ((t - (e - 52)).toNat : ℤ) = t - (e - 52) := Int.toNat_of_nonneg (by omega)
  push_cast
  rw [← zpow_natCast, hd, mul_assoc, ← zpow_add₀ (by norm_num : (2 : ℚ) ≠ 0)]
  congr 2
  ring

theorem roundPos_le_dyadic {x : ℚ} (hx : 0 < x) (m t : ℤ) (hm : m < 2 ^ 53)
    (h : x ≤ (m : ℚ) * 2 ^ t) : roundPos x ≤ (m : ℚ) * 2 ^ t := by
  have ht := two_zpow_pos t
  have hlt : x < (2 : ℚ) ^ (53 + t) := by
    rw [zpow_add₀ (by norm_num : (2 : ℚ) ≠ 0)]
    have : (m : ℚ) < 2 ^ (53 : ℤ) := by exact_mod_cast hm
    calc x ≤ (m : ℚ) * 2 ^ t := h
      _ < 2 ^ (53 : ℤ) * 2 ^ t := mul_lt_mul_of_pos_right this ht
  have he := log_lt_of_lt_zpow hx hlt
  have hN := dyadic_scale m t (Int.log 2 x) (by omega)
  rw [← hN]
  exact roundPos_le_grid hx _ (by rw [hN]; exact h)

theorem dyadic_le_roundPos {x : ℚ} (hx : 0 < x) (m t : ℤ) (hm : m ≤ 2 ^ 53)
    (h : (m : ℚ) * 2 ^ t ≤ x) : (m : ℚ) * 2 ^ t ≤ roundPos x := by
  have ht := two_zpow_pos t
  by_cases he : Int.log 2 x - 52 ≤ t
  · have hN := dyadic_scale m t (Int.log 2 x) he
    rw [← hN]
    exact grid_le_roundPos hx _ (by rw [hN]; exact h)
  · have hm' : (m : ℚ) ≤ 2 ^ (53 : ℤ) := by exact_mod_cast hm
    calc (m : ℚ) * 2 ^ t ≤ 2 ^ (53 : ℤ) * 2 ^ t := mul_le_mul_of_nonneg_right hm' ht.le
      _ = 2 ^ (53 + t) := (zpow_add₀ (by norm_num : (2 : ℚ) ≠ 0) _ _).symm
      _ ≤ 2 ^ Int.log 2 x := zpow_le_zpow_right₀ (by norm_num) (by omega)
      _ ≤ roundPos x := zpow_le_roundPos hx

theorem roundBinary64_pos {x : ℚ} (hx : 0 < x) : roundBinary64 x = roundPos x := by
  simp [roundBinary64, hx]

theorem roundBinary64_neg {x : ℚ} (hx : x < 0) : roundBinary64 x = -roundPos (-x) := by
  simp [roundBinary64, hx, not_lt.mpr hx.le]

theorem roundBinary64_zero : roundBinary64 0 = 0 := by
  simp [roundBinary64]

theorem roundBinary64_nonneg {x : ℚ} (hx : 0 ≤ x) : 0 ≤ roundBinary64 x := by
  rcases lt_or_eq_of_le hx with h | h
  · rw [roundBinary64_pos h]; exact (roundPos_pos h).le
  · rw [← h, roundBinary64_zero]

theorem roundBinary64_lt_zero {x : ℚ} (hx : x < 0) : roundBinary64 x < 0 := by
  rw [roundBinary64_neg hx]
  have := roundPos_pos (x := -x) (by linarith)
  linarith

theorem roundBinary64_le_dyadic {x : ℚ} (m t : ℤ) (hm : |m| < 2 ^ 53)
    (h : x ≤ (m : ℚ) * 2 ^ t) : roundBinary64 x ≤ (m : ℚ) * 2 ^ t := by
  have ht := two_zpow_pos t
  rw [abs_lt] at hm
  rcases lt_trichotomy x 0 with hx | hx | hx
  · rw [roundBinary64_neg hx]
    by_cases hm0 : 0 ≤ m
    · have := roundPos_pos (x := -x) (by linarith)
      have : (0 : ℚ) ≤ (m : ℚ) * 2 ^ t := mul_nonneg (by exact_mod_cast hm0) ht.le
      linarith
    · have := dyadic_le_roundPos (x := -x) (by linarith) (-m) t (by omega)
        (by push_cast; linarith)
      push_cast at this
      linarith
  · subst hx
    rw [roundBinary64_zero]; exact h
  · rw [roundBinary64_pos hx]
    exact roundPos_le_dyadic hx m t (by omega) h

theorem dyadic_le_roundBinary64 {x : ℚ} (m t : ℤ) (hm : |m| < 2 ^ 53)
    (h : (m : ℚ) * 2 ^ t ≤ x) : (m : ℚ) * 2 ^ t ≤ roundBinary64 x := by
  have ht := two_zpow_pos t
  rw [abs_lt] at hm
  rcases lt_trichotomy x 0 with hx | hx | hx
  · rw [roundBinary64_neg hx]
    have := roundPos_le_dyadic (x := -x) (by linarith) (-m) t (by omega)
      (by push_cast; linarith)
    push_cast at this
    linarith
  · subst hx
    rw [roundBinary64_zero]; exact h
  · rw [roundBinary64_pos hx]
    by_cases hm0 : 0 ≤ m
    · exact dyadic_le_roundPos hx m t (by omega) h
    · have := roundPos_pos hx
      have : (m : ℚ) * 2 ^ t ≤ 0 :=
        mul_nonpos_of_nonpos_of_nonneg (by exact_mod_cast (by omega : m ≤ 0)) ht.le
      linarith

theorem roundBinary64_dyadic (m t : ℤ) (hm : |m| < 2 ^ 53) :
    roundBinary64 ((m : ℚ) * 2 ^ t) = (m : ℚ) * 2 ^ t :=
  le_antisymm (roundBinary64_le_dyadic m t hm le_rfl) (dyadic_le_roundBinary64 m t hm le_rfl)

theorem roundBinary64_le_int {x : ℚ} (n : ℤ) (hn : |n| < 2 ^ 53) (h : x ≤ (n : ℚ)) :
    roundBinary64 x ≤ (n : ℚ) := by
  have := roundBinary64_le_dyadic (x := x) n 0 hn (by simpa using h)
  simpa using this

theorem int_le_roundBinary64 {x : ℚ} (n : ℤ) (hn : |n| < 2 ^ 53) (h : (n : ℚ) ≤ x) :
    (n : ℚ) ≤ roundBinary64 x := by
  have := dyadic_le_roundBinary64 (x := x) n 0 hn (by simpa using h)
  simpa using this

theorem roundBinary64_intCast (n : ℤ) (hn : |n| < 2 ^ 53) : roundBinary64 (n : ℚ) = n :=
  le_antisymm (roundBinary64_le_int n hn le_rfl) (int_le_roundBinary64 n hn le_rfl)

theorem roundBinary64_eval {x : ℚ} (e N : ℤ) (h1 : (2 : ℚ) ^ e ≤ x) (h2 : x < (2 : ℚ) ^ (e + 1))
    (h3 : |x / 2 ^ (e - 52) - N| < 1 / 2) : roundBinary64 x = (N : ℚ) * 2 ^ (e - 52) := by
  have hx : 0 < x := lt_of_lt_of_le (two_zpow_pos e) h1
  rw [roundBinary64_pos hx]
  unfold roundPos
  rw [log_eq_of_bounds h1 h2, rne_eq_of_abs_lt h3]

theorem abs_rne_sub_le (y : ℚ) : |(roundHalfEven y : ℚ) - y| ≤ 1 / 2 := by
  have h1 := Int.floor_le y
  have h2 := Int.lt_floor_add_one y
  rw [abs_le]
  unfold roundHalfEven
  split_ifs <;> constructor <;> push_cast <;> linarith

theorem roundPos_le_rel {x : ℚ} (hx : 0 < x) : roundPos x ≤ x * (1 + 2 ^ (-53 : ℤ)) := by
  have hs := two_zpow_pos (Int.log 2 x - 52)
  have hr := (abs_le.mp (abs_rne_sub_le (x / 2 ^ (Int.log 2 x - 52)))).2
  have hlog := zpow_log_le hx
  have hsplit : (2 : ℚ) ^ (Int.log 2 x - 52) = 2 ^ Int.log 2 x * 2 ^ (-52 : ℤ) := by
    rw [← zpow_add₀ (by norm_num : (2 : ℚ) ≠ 0)]; rfl
  have hmul : (roundHalfEven (x / 2 ^ (Int.log 2 x - 52)) : ℚ) * 2 ^ (Int.log 2 x - 52)
      ≤ x + 1 / 2 * 2 ^ (Int.log 2 x - 52) := by
    have := mul_le_mul_of_nonneg_right hr hs.le
    rw [sub_mul, div_mul_cancel₀ _ hs.ne'] at this
    linarith
  unfold roundPos
  calc _ ≤ x + 1 / 2 * 2 ^ (Int.log 2 x - 52) := hmul
    _ = x + 2 ^ Int.log 2 x * 2 ^ (-53 : ℤ) := by
      rw [hsplit]; norm_num; ring
    _ ≤ x + x * 2 ^ (-53 : ℤ) := by
      have := mul_le_mul_of_nonneg_right hlog (two_zpow_pos (-53)).le
      linarith
    _ = x * (1 + 2 ^ (-53 : ℤ)) := by ring

/-! ## Lemmas on the frame index -/

theorem frameIndex_eq (p : ℚ) : frameIndex p = min ⌊roundBinary64 (p * 240)⌋ 239 := by
  simp [frameIndex, mulBinary64, totalFrames]

theorem frameIndex_le (p : ℚ) : frameIndex p ≤ 239 := by
  rw [frameIndex_eq]; exact min_le_right _ _

theorem frameIndex_nonneg {p : ℚ} (hp : 0 ≤ p) : 0 ≤ frameIndex p := by
  rw [frameIndex_eq]
  exact le_min (Int.floor_nonneg.mpr (roundBinary64_nonneg (by positivity))) (by norm_num)

theorem frameIndex_mono {p q : ℚ} (h : p ≤ q) : frameIndex p ≤ frameIndex q := by
  rw [frameIndex_eq, frameIndex_eq]
  exact min_le_min (Int.floor_mono (roundBinary64_mono (by linarith))) le_rfl

theorem frameIndex_of_int {p : ℚ} (n : ℤ) (hn : |n| < 2 ^ 53) (h : p * 240 = (n : ℚ)) :
    frameIndex p = min n 239 := by
  rw [frameIndex_eq, h, roundBinary64_intCast n hn, Int.floor_intCast]

/-- Rounding moves the floor of a moderate value up by at most one and never
down. -/
theorem floor_round_bounds {x : ℚ} (hx : |⌊x⌋| < 2 ^ 52) :
    ⌊x⌋ ≤ ⌊roundBinary64 x⌋ ∧ ⌊roundBinary64 x⌋ ≤ ⌊x⌋ + 1 := by
  rw [abs_lt] at hx
  constructor
  · apply Int.le_floor.mpr
    exact int_le_roundBinary64 ⌊x⌋ (by rw [abs_lt]; omega) (Int.floor_le x)
  · have hup : x ≤ ((⌊x⌋ + 1 : ℤ) : ℚ) := by
      push_cast
      exact (Int.lt_floor_add_one x).le
    have := roundBinary64_le_int (⌊x⌋ + 1) (by rw [abs_lt]; omega) hup
    have hfl := Int.floor_mono this
    rwa [Int.floor_intCast] at hfl

theorem floor_unit_range {p : ℚ} (hp0 : 0 ≤ p) (hp1 : p ≤ 1) :
    0 ≤ ⌊p * 240⌋ ∧ ⌊p * 240⌋ ≤ 240 := by
  constructor
  · exact Int.floor_nonneg.mpr (by positivity)
  · have h : ⌊p * 240⌋ ≤ ⌊(240 : ℚ)⌋ := Int.floor_mono (by linarith)
    simpa using h

theorem frameIndex_near_formula {p : ℚ} (hp0 : 0 ≤ p) (hp1 : p ≤ 1) :
    min ⌊p * 240⌋ 239 ≤ frameIndex p ∧ frameIndex p ≤ min ⌊p * 240⌋ 239 + 1 := by
  obtain ⟨h0, h1⟩ := floor_unit_range hp0 hp1
  obtain ⟨h2, h3⟩ := floor_round_bounds (x := p * 240) (by rw [abs_lt]; omega)
  rw [frameIndex_eq]
  omega

theorem isBinary64_dyadic (m t : ℤ) (hm : |m| < 2 ^ 53) (ht0 : -1074 ≤ t) (ht1 : t ≤ 971) :
    IsBinary64 ((m : ℚ) * 2 ^ t) := by
  have ht := two_zpow_pos t
  refine ⟨roundBinary64_dyadic m t hm, ?_, ?_⟩
  · have hmq : |(m : ℚ)| < 2 ^ (53 : ℤ) := by exact_mod_cast hm
    have hpow : (2 : ℚ) ^ t ≤ 2 ^ (971 : ℤ) := zpow_le_zpow_right₀ (by norm_num) ht1
    have h1024 : (2 : ℚ) ^ (53 : ℤ) * 2 ^ (971 : ℤ) = 2 ^ 1024 := by
      rw [← zpow_add₀ (by norm_num : (2 : ℚ) ≠ 0)]
      norm_num
    rw [abs_mul, abs_of_pos ht, ← h1024]
    calc |(m : ℚ)| * 2 ^ t ≤ |(m : ℚ)| * 2 ^ (971 : ℤ) :=
          mul_le_mul_of_nonneg_left hpow (abs_nonneg _)
      _ < 2 ^ (53 : ℤ) * 2 ^ (971 : ℤ) :=
          mul_lt_mul_of_pos_right hmq (two_zpow_pos _)
  · have hd : (((t + 1074).toNat : ℕ) : ℤ) = t + 1074 := Int.toNat_of_nonneg (by omega)
    have hx : (m : ℚ) * 2 ^ t * 2 ^ 1074 = ((m * 2 ^ (t + 1074).toNat : ℤ) : ℚ) := by
      push_cast
      rw [← zpow_natCast (2 : ℚ) (t + 1074).toNat, hd, mul_assoc]
      congr 1
      rw [zpow_add₀ (by norm_num : (2 : ℚ) ≠ 0)]
      norm_num
    rw [hx, Int.floor_intCast]

theorem isBinary64_0_7 : IsBinary64 binary64_0_7 := by
  have h := isBinary64_dyadic 3152519739159347 (-52) (by norm_num) (by norm_num) (by norm_num)
  have he : ((3152519739159347 : ℤ) : ℚ) * 2 ^ (-52 : ℤ) = binary64_0_7 := by
    norm_num [binary64_0_7]
  rwa [he] at h

theorem isBinary64_0_3 : IsBinary64 binary64_0_3 := by
  have h := isBinary64_dyadic 5404319552844595 (-54) (by norm_num) (by norm_num) (by norm_num)
  have he : ((5404319552844595 : ℤ) : ℚ) * 2 ^ (-54 : ℤ) = binary64_0_3 := by
    norm_num [binary64_0_3]
  rwa [he] at h

theorem isBinary64_0_1 : IsBinary64 binary64_0_1 := by
  have h := isBinary64_dyadic 3602879701896397 (-55) (by norm_num) (by norm_num) (by norm_num)
  have he : ((3602879701896397 : ℤ) : ℚ) * 2 ^ (-55 : ℤ) = binary64_0_1 := by
    norm_num [binary64_0_1]
  rwa [he] at h

theorem isBinary64_0_999999 : IsBinary64 binary64_0_999999 := by
  have h := isBinary64_dyadic 9007190247541737 (-53) (by norm_num) (by norm_num) (by norm_num)
  have he : ((9007190247541737 : ℤ) : ℚ) * 2 ^ (-53 : ℤ) = binary64_0_999999 := by
    norm_num [binary64_0_999999]
  rwa [he] at h

/-- The number written `0.999999` is the binary64 value nearest to the
rational `999999/1000000`. -/
theorem round_0_999999 : roundBinary64 (999999 / 1000000) = binary64_0_999999 := by
  rw [roundBinary64_eval (-1) 9007190247541737 (by norm_num) (by norm_num)
    (by rw [abs_lt]; constructor <;> norm_num)]
  norm_num [binary64_0_999999]

/-- The number written `0.7` is the binary64 value nearest to `7/10`. -/
theorem round_0_7 : roundBinary64 (7 / 10) = binary64_0_7 := by
  rw [roundBinary64_eval (-1) 6305039478318694 (by norm_num) (by norm_num)
    (by rw [abs_lt]; constructor <;> norm_num)]
  norm_num [binary64_0_7]

/-- The number written `0.3` is the binary64 value nearest to `3/10`. -/
theorem round_0_3 : roundBinary64 (3 / 10) = binary64_0_3 := by
  rw [roundBinary64_eval (-2) 5404319552844595 (by norm_num) (by norm_num)
    (by rw [abs_lt]; constructor <;> norm_num)]
  norm_num [binary64_0_3]

/-- The number written `0.1` is the binary64 value nearest to `1/10`. -/
theorem round_0_1 : roundBinary64 (1 / 10) = binary64_0_1 := by
  rw [roundBinary64_eval (-4) 7205759403792794 (by norm_num) (by norm_num)
    (by rw [abs_lt]; constructor <;> norm_num)]
  norm_num [binary64_0_1]

theorem frameIndex_0_7 : frameIndex binary64_0_7 = 168 := by
  rw [frameIndex_eq,
    roundBinary64_eval (x := binary64_0_7 * 240) 7 (168 * 2 ^ 45)
      (by norm_num [binary64_0_7]) (by norm_num [binary64_0_7])
      (by rw [abs_lt]; constructor <;> norm_num [binary64_0_7])]
  norm_num

theorem frameIndex_0_3 : frameIndex binary64_0_3 = 72 := by
  rw [frameIndex_eq,
    roundBinary64_eval (x := binary64_0_3 * 240) 6 (72 * 2 ^ 46)
      (by norm_num [binary64_0_3]) (by norm_num [binary64_0_3])
      (by rw [abs_lt]; constructor <;> norm_num [binary64_0_3])]
  norm_num

theorem formula_0_7 : min ⌊binary64_0_7 * 240⌋ 239 = 167 := by
  have h : ⌊binary64_0_7 * 240⌋ = 167 :=
    Int.floor_eq_iff.mpr ⟨by norm_num [binary64_0_7], by norm_num [binary64_0_7]⟩
  rw [h]; rfl

theorem formula_0_3 : min ⌊binary64_0_3 * 240⌋ 239 = 71 := by
  have h : ⌊binary64_0_3 * 240⌋ = 71 :=
    Int.floor_eq_iff.mpr ⟨by norm_num [binary64_0_3], by norm_num [binary64_0_3]⟩
  rw [h]; rfl

theorem frameIndex_values :
    frameIndex 0 = 0 ∧ frameIndex (1 / 2) = 120 ∧ frameIndex 1 = 239 ∧
      frameIndex binary64_0_999999 = 239 := by
  refine ⟨?_, ?_, ?_, ?_⟩
  · rw [frameIndex_of_int 0 (by norm_num) (by norm_num)]; rfl
  · rw [frameIndex_of_int 120 (by norm_num) (by norm_num)]; rfl
  · rw [frameIndex_of_int 240 (by norm_num) (by norm_num)]; rfl
  · rw [frameIndex_eq]
    have hlo : ((239 : ℤ) : ℚ) ≤ roundBinary64 (binary64_0_999999 * 240) :=
      int_le_roundBinary64 239 (by norm_num) (by norm_num [binary64_0_999999])
    have hhi : roundBinary64 (binary64_0_999999 * 240) ≤ ((1966079 : ℤ) : ℚ) * 2 ^ (-13 : ℤ) :=
      roundBinary64_le_dyadic 1966079 (-13) (by norm_num) (by norm_num [binary64_0_999999])
    have hfl : ⌊roundBinary64 (binary64_0_999999 * 240)⌋ = 239 :=
      Int.floor_eq_iff.mpr ⟨hlo, lt_of_le_of_lt hhi (by norm_num)⟩
    rw [hfl]; rfl

/-! ## Lemmas on the operations -/

theorem totalToLoad_eq : totalToLoad = 240 := by
  simp [totalToLoad, frames, totalFrames]

theorem cancelPending_fields (s : AppState) :
    (cancelPending s).currentFrame = s.currentFrame ∧
    (cancelPending s).isLoading = s.isLoading ∧
    (cancelPending s).rafRef = s.rafRef ∧
    (cancelPending s).subscribed = s.subscribed ∧
    (cancelPending s).nextHandle = s.nextHandle ∧
    (cancelPending s).loadedCount = s.loadedCount ∧
    (cancelPending s).frameUpdates = s.frameUpdates ∧
    (∀ cb ∈ (cancelPending s).pending, cb ∈ s.pending) := by
  unfold cancelPending
  cases hr : s.rafRef with
  | none => simp [hr]
  | some h =>
    by_cases hz : h = 0
    · simp [hz, hr]
    · simp only [hz, ne_eq, not_false_eq_true, if_true, cancelAnimationFrame, hr]
      refine ⟨trivial, trivial, trivial, trivial, trivial, trivial, trivial, ?_⟩
      intro cb hcb
      exact (List.mem_filter.mp hcb).1

theorem onChange_fields (p : ℚ) (s : AppState) :
    (onChange p s).currentFrame = s.currentFrame ∧
    (onChange p s).isLoading = s.isLoading ∧
    (onChange p s).rafRef = some s.nextHandle ∧
    (onChange p s).subscribed = s.subscribed ∧
    (onChange p s).nextHandle = s.nextHandle + 1 ∧
    (onChange p s).loadedCount = s.loadedCount ∧
    (onChange p s).frameUpdates = s.frameUpdates ∧
    (onChange p s).pending = (cancelPending s).pending ++ [(s.nextHandle, p)] := by
  obtain ⟨h1, h2, _, h4, h5, h6, h7, _⟩ := cancelPending_fields s
  simp [onChange, requestAnimationFrame, h1, h2, h4, h5, h6, h7]

theorem foldl_update_fields (l : List (ℕ × ℚ)) (a : AppState) :
    (l.foldl (fun acc cb => scheduledUpdate cb.2 acc) a).isLoading = a.isLoading ∧
    (l.foldl (fun acc cb => scheduledUpdate cb.2 acc) a).rafRef = a.rafRef ∧
    (l.foldl (fun acc cb => scheduledUpdate cb.2 acc) a).subscribed = a.subscribed ∧
    (l.foldl (fun acc cb => scheduledUpdate cb.2 acc) a).nextHandle = a.nextHandle ∧
    (l.foldl (fun acc cb => scheduledUpdate cb.2 acc) a).loadedCount = a.loadedCount ∧
    (l.foldl (fun acc cb => scheduledUpdate cb.2 acc) a).pending = a.pending ∧
    (l.foldl (fun acc cb => scheduledUpdate cb.2 acc) a).frameUpdates
      = a.frameUpdates + l.length := by
  induction l generalizing a with
  | nil => simp
  | cons cb l ih =>
    obtain ⟨h1, h2, h3, h4, h5, h6, h7⟩ := ih (scheduledUpdate cb.2 a)
    simp only [List.foldl_cons, h1, h2, h3, h4, h5, h6, h7, List.length_cons]
    simp [scheduledUpdate, setCurrentFrame]
    omega

theorem foldl_update_frame (l : List (ℕ × ℚ)) (a : AppState) (P : ℤ → Prop)
    (ha : P a.currentFrame) (hl : ∀ cb ∈ l, P (frameIndex cb.2)) :
    P (l.foldl (fun acc cb => scheduledUpdate cb.2 acc) a).currentFrame := by
  induction l generalizing a with
  | nil => simpa using ha
  | cons cb l ih =>
    simp only [List.foldl_cons]
    apply ih
    · simpa [scheduledUpdate, setCurrentFrame] using hl cb (List.mem_cons_self _ _)
    · intro c hc
      exact hl c (List.mem_cons_of_mem _ hc)

theorem foldl_update_last (l : List (ℕ × ℚ)) (cb : ℕ × ℚ) (a : AppState) :
    ((l ++ [cb]).foldl (fun acc cb => scheduledUpdate cb.2 acc) a).currentFrame
      = frameIndex cb.2 := by
  simp [List.foldl_append, scheduledUpdate, setCurrentFrame]

theorem paint_fields (s : AppState) :
    (paint s).isLoading = s.isLoading ∧
    (paint s).rafRef = s.rafRef ∧
    (paint s).subscribed = s.subscribed ∧
    (paint s).nextHandle = s.nextHandle ∧
    (paint s).loadedCount = s.loadedCount ∧
    (paint s).pending = [] ∧
    (paint s).frameUpdates = s.frameUpdates + s.pending.length := by
  unfold paint
  exact foldl_update_fields s.pending _

theorem paint_idle (s : AppState) (h : s.pending = []) :
    (paint s).currentFrame = s.currentFrame := by
  simp [paint, h]

theorem paint_last (s : AppState) (l : List (ℕ × ℚ)) (cb : ℕ × ℚ)
    (h : s.pending = l ++ [cb]) : (paint s).currentFrame = frameIndex cb.2 := by
  unfold paint
  rw [h]
  exact foldl_update_last l cb _

theorem cleanup_fields (s : AppState) :
    (cleanup s).currentFrame = s.currentFrame ∧
    (cleanup s).isLoading = s.isLoading ∧
    (cleanup s).rafRef = s.rafRef ∧
    (cleanup s).subscribed = false ∧
    (cleanup s).nextHandle = s.nextHandle ∧
    (cleanup s).loadedCount = s.loadedCount ∧
    (cleanup s).frameUpdates = s.frameUpdates := by
  obtain ⟨h1, h2, h3, h4, h5, h6, h7, _⟩ :=
    cancelPending_fields { s with subscribed := false }
  exact ⟨h1, h2, h3, h4, h5, h6, h7⟩

theorem onload_fields (s : AppState) :
    (onload s).currentFrame = s.currentFrame ∧
    (onload s).rafRef = s.rafRef ∧
    (onload s).subscribed = s.subscribed ∧
    (onload s).nextHandle = s.nextHandle ∧
    (onload s).pending = s.pending ∧
    (onload s).frameUpdates = s.frameUpdates ∧
    (onload s).loadedCount = s.loadedCount + 1 := by
  simp only [onload]
  by_cases h : s.loadedCount + 1 = totalToLoad
  · simp [h]
  · simp [h]

theorem run_nil (s : AppState) : run s [] = s := rfl

theorem run_cons (s : AppState) (e : Event) (evs : List Event) :
    run s (e :: evs) = run (step s e) evs := rfl

theorem run_append (s : AppState) (xs ys : List Event) :
    run s (xs ++ ys) = run (run s xs) ys := by
  simp [run, List.foldl_append]

/-! ## The scheduler queue -/

theorem animInv_mount {h0 : ℕ} (h : h0 ≠ 0) : AnimInv (mount h0) := by
  simp [AnimInv, mount, h]

theorem animInv_cancel {s : AppState} (hs : AnimInv s) :
    (cancelPending s).pending = [] := by
  obtain ⟨_, hlen, hraf⟩ := hs
  cases hp : s.pending with
  | nil =>
    apply List.eq_nil_iff_forall_not_mem.mpr
    intro cb hcb
    have := (cancelPending_fields s).2.2.2.2.2.2.2 cb hcb
    simp [hp] at this
  | cons cb rest =>
    have hrest : rest = [] := by
      rw [hp] at hlen
      simpa using hlen
    subst hrest
    obtain ⟨h1, h2⟩ := hraf cb (by simp [hp])
    simp [cancelPending, h1, h2, cancelAnimationFrame, hp]

theorem animInv_onChange {s : AppState} (hs : AnimInv s) (p : ℚ) :
    AnimInv (onChange p s) ∧ (onChange p s).pending = [(s.nextHandle, p)] := by
  obtain ⟨_, _, h3, _, h5, _, _, h8⟩ := onChange_fields p s
  rw [animInv_cancel hs, List.nil_append] at h8
  refine ⟨⟨by rw [h5]; omega, by rw [h8]; simp, ?_⟩, h8⟩
  intro cb hcb
  rw [h8] at hcb
  have : cb = (s.nextHandle, p) := by simpa using hcb
  subst this
  exact ⟨h3, hs.1⟩

theorem animInv_cleanup {s : AppState} (hs : AnimInv s) :
    AnimInv (cleanup s) ∧ (cleanup s).pending = [] := by
  have hs1 : AnimInv { s with subscribed := false } := hs
  have hp : (cleanup s).pending = [] := animInv_cancel hs1
  obtain ⟨_, _, _, _, h5, _, _⟩ := cleanup_fields s
  refine ⟨⟨by rw [h5]; exact hs.1, by rw [hp]; simp, ?_⟩, hp⟩
  intro cb hcb
  rw [hp] at hcb
  simp at hcb

theorem animInv_step {s : AppState} (hs : AnimInv s) (e : Event) :
    AnimInv (step s e) := by
  cases e with
  | progress p =>
    simp only [step]
    by_cases hsub : s.subscribed = true
    · rw [if_pos hsub]; exact (animInv_onChange hs p).1
    · rw [if_neg hsub]; exact hs
  | paint =>
    obtain ⟨_, _, _, h4, _, h6, _⟩ := paint_fields s
    refine ⟨by simp only [step]; rw [h4]; exact hs.1, by simp only [step]; rw [h6]; simp, ?_⟩
    intro cb hcb
    simp only [step] at hcb
    rw [h6] at hcb
    simp at hcb
  | teardown => exact (animInv_cleanup hs).1
  | load i ok =>
    cases ok with
    | false => exact hs
    | true =>
      obtain ⟨_, h2, _, h4, h5, _, _⟩ := onload_fields s
      simp only [step, AnimInv]
      rw [h2, h4, h5]
      exact hs

theorem animInv_run {s : AppState} (hs : AnimInv s) (evs : List Event) :
    AnimInv (run s evs) := by
  induction evs generalizing s with
  | nil => exact hs
  | cons e evs ih => exact ih (animInv_step hs e)

theorem step_subscribed (s : AppState) (e : Event) (he : e ≠ Event.teardown) :
    (step s e).subscribed = s.subscribed := by
  cases e with
  | progress p =>
    simp only [step]
    by_cases hsub : s.subscribed = true
    · rw [if_pos hsub]; exact (onChange_fields p s).2.2.2.1
    · rw [if_neg hsub]
  | paint => exact (paint_fields s).2.2.1
  | teardown => exact absurd rfl he
  | load i ok =>
    cases ok with
    | false => rfl
    | true => exact (onload_fields s).2.2.1

theorem run_subscribed (s : AppState) (evs : List Event)
    (h : Event.teardown ∉ evs) : (run s evs).subscribed = s.subscribed := by
  induction evs generalizing s with
  | nil => rfl
  | cons e evs ih =>
    rw [run_cons, ih (step s e) (fun hm => h (List.mem_cons_of_mem _ hm))]
    exact step_subscribed s e (fun he => h (he ▸ List.mem_cons_self _ _))

/-- A burst delivered to a listening component leaves exactly one callback
queued, the one that captured the last value, and applies no update yet. -/
theorem run_burst {s : AppState} (hs : AnimInv s) (hsub : s.subscribed = true)
    (ps : List ℚ) (hne : ps ≠ []) :
    (∃ h, (run s (burst ps)).pending = [(h, ps.getLast hne)]) ∧
    (run s (burst ps)).currentFrame = s.currentFrame ∧
    (run s (burst ps)).frameUpdates = s.frameUpdates := by
  induction ps generalizing s with
  | nil => exact absurd rfl hne
  | cons p ps ih =>
    have hstep : step s (Event.progress p) = onChange p s := by
      simp [step, hsub]
    obtain ⟨h1, _, _, h4, _, _, h7, _⟩ := onChange_fields p s
    obtain ⟨hinv, hpend⟩ := animInv_onChange hs p
    by_cases hps : ps = []
    · subst hps
      simp only [burst, List.map_cons, List.map_nil, run_cons, run_nil, hstep,
        List.getLast_singleton]
      exact ⟨⟨_, hpend⟩, h1, h7⟩
    · have := ih hinv (by rw [h4]; exact hsub) hps
      simp only [burst, List.map_cons, run_cons, hstep]
      rw [List.getLast_cons hps]
      simp only [burst] at this
      rw [h1, h7] at this
      exact this

/-! ## After teardown -/

theorem tornDown_step {s : AppState} (hs : TornDown s) (e : Event) :
    TornDown (step s e) ∧ (step s e).currentFrame = s.currentFrame ∧
      (step s e).frameUpdates = s.frameUpdates := by
  obtain ⟨hsub, hpend⟩ := hs
  cases e with
  | progress p => simp [step, hsub, TornDown, hpend]
  | paint =>
    obtain ⟨_, _, h3, _, _, h6, h7⟩ := paint_fields s
    refine ⟨⟨by simp only [step]; rw [h3]; exact hsub, h6⟩, paint_idle s hpend, ?_⟩
    simp only [step]
    rw [h7, hpend]
    rfl
  | teardown =>
    obtain ⟨h1, _, _, h4, _, _, h7⟩ := cleanup_fields s
    refine ⟨⟨h4, ?_⟩, h1, h7⟩
    apply List.eq_nil_iff_forall_not_mem.mpr
    intro cb hcb
    have := (cancelPending_fields { s with subscribed := false }).2.2.2.2.2.2.2 cb hcb
    simp [hpend] at this
  | load i ok =>
    cases ok with
    | false => exact ⟨⟨hsub, hpend⟩, rfl, rfl⟩
    | true =>
      obtain ⟨h1, _, h3, _, h5, h6, _⟩ := onload_fields s
      exact ⟨⟨by simp only [step]; rw [h3]; exact hsub,
        by simp only [step]; rw [h5]; exact hpend⟩, h1, h6⟩

theorem tornDown_run {s : AppState} (hs : TornDown s) (evs : List Event) :
    TornDown (run s evs) ∧ (run s evs).currentFrame = s.currentFrame ∧
      (run s evs).frameUpdates = s.frameUpdates := by
  induction evs generalizing s with
  | nil => exact ⟨hs, rfl, rfl⟩
  | cons e evs ih =>
    obtain ⟨h1, h2, h3⟩ := tornDown_step hs e
    obtain ⟨k1, k2, k3⟩ := ih h1
    exact ⟨k1, by rw [run_cons, k2, h2], by rw [run_cons, k3, h3]⟩

/-! ## Range of the displayed index -/

theorem frameInv_mount (h0 : ℕ) : FrameInv (mount h0) := by
  simp [FrameInv, mount]

theorem frameInv_step {s : AppState} (hs : FrameInv s) (e : Event)
    (he : ∀ p, e = Event.progress p → 0 ≤ p) : FrameInv (step s e) := by
  obtain ⟨hcur, hq⟩ := hs
  cases e with
  | progress p =>
    simp only [step]
    by_cases hsub : s.subscribed = true
    · rw [if_pos hsub]
      obtain ⟨h1, _, _, _, _, _, _, h8⟩ := onChange_fields p s
      refine ⟨by rw [h1]; exact hcur, ?_⟩
      intro cb hcb
      rw [h8, List.mem_append] at hcb
      rcases hcb with hcb | hcb
      · exact hq cb ((cancelPending_fields s).2.2.2.2.2.2.2 cb hcb)
      · have : cb = (s.nextHandle, p) := by simpa using hcb
        subst this
        exact he p rfl
    · rw [if_neg hsub]; exact ⟨hcur, hq⟩
  | paint =>
    refine ⟨?_, ?_⟩
    · simp only [step, paint]
      exact foldl_update_frame s.pending { s with pending := [] }
        (fun x => 0 ≤ x ∧ x ≤ 239) hcur
        (fun cb hcb => ⟨frameIndex_nonneg (hq cb hcb), frameIndex_le cb.2⟩)
    · intro cb hcb
      simp only [step] at hcb
      rw [(paint_fields s).2.2.2.2.2.1] at hcb
      simp at hcb
  | teardown =>
    refine ⟨by simp only [step]; rw [(cleanup_fields s).1]; exact hcur, ?_⟩
    intro cb hcb
    exact hq cb ((cancelPending_fields { s with subscribed := false }).2.2.2.2.2.2.2 cb hcb)
  | load i ok =>
    cases ok with
    | false => exact ⟨hcur, hq⟩
    | true =>
      obtain ⟨h1, _, _, _, h5, _, _⟩ := onload_fields s
      simp only [step, FrameInv]
      rw [h1, h5]
      exact ⟨hcur, hq⟩

theorem frameInv_run {s : AppState} (hs : FrameInv s) (evs : List Event)
    (he : ∀ p, Event.progress p ∈ evs → 0 ≤ p) : FrameInv (run s evs) := by
  induction evs generalizing s with
  | nil => exact hs
  | cons e evs ih =>
    rw [run_cons]
    apply ih
    · exact frameInv_step hs e (fun p hp => he p (hp ▸ List.mem_cons_self _ _))
    · intro p hp
      exact he p (List.mem_cons_of_mem _ hp)

theorem frameAt_inRange {i : ℤ} (h0 : 0 ≤ i) (h1 : i ≤ 239) :
    frameAt i = some (frameUrl i.toNat) := by
  have hlt : i.toNat < 240 := by omega
  simp [frameAt, h0, frames, totalFrames, hlt]

/-! ## The preload counter -/

theorem loadInv_mount (h0 : ℕ) : LoadInv (mount h0) := by
  simp [LoadInv, mount, totalToLoad_eq]

theorem step_isLoading_of_ne_load (s : AppState) (e : Event)
    (he : ∀ i, e ≠ Event.load i true) :
    (step s e).isLoading = s.isLoading ∧ (step s e).loadedCount = s.loadedCount := by
  cases e with
  | progress p =>
    simp only [step]
    by_cases hsub : s.subscribed = true
    · rw [if_pos hsub]
      exact ⟨(onChange_fields p s).2.1, (onChange_fields p s).2.2.2.2.2.1⟩
    · rw [if_neg hsub]; exact ⟨rfl, rfl⟩
  | paint => exact ⟨(paint_fields s).1, (paint_fields s).2.2.2.2.1⟩
  | teardown => exact ⟨(cleanup_fields s).2.1, (cleanup_fields s).2.2.2.2.2.1⟩
  | load i ok =>
    cases ok with
    | false => exact ⟨rfl, rfl⟩
    | true => exact absurd rfl (he i)

theorem onload_isLoading (s : AppState) :
    (onload s).isLoading = (if s.loadedCount + 1 = totalToLoad then false else s.isLoading) := by
  simp only [onload]
  by_cases h : s.loadedCount + 1 = totalToLoad
  · simp [h]
  · simp [h]

theorem loadInv_step {s : AppState} (hs : LoadInv s) (e : Event) : LoadInv (step s e) := by
  by_cases he : ∃ i, e = Event.load i true
  · obtain ⟨i, rfl⟩ := he
    simp only [step, LoadInv]
    rw [onload_isLoading, (onload_fields s).2.2.2.2.2.2]
    unfold LoadInv at hs
    by_cases h : s.loadedCount + 1 = totalToLoad
    · simp [h]
    · rw [if_neg h, hs]
      omega
  · have hne : ∀ i, e ≠ Event.load i true := fun i h => he ⟨i, h⟩
    obtain ⟨h1, h2⟩ := step_isLoading_of_ne_load s e hne
    unfold LoadInv
    rw [h1, h2]
    exact hs

theorem loadInv_run {s : AppState} (hs : LoadInv s) (evs : List Event) :
    LoadInv (run s evs) := by
  induction evs generalizing s with
  | nil => exact hs
  | cons e evs ih => exact ih (loadInv_step hs e)

theorem run_loadedCount (s : AppState) (evs : List Event) :
    (run s evs).loadedCount = s.loadedCount + (loadedIds evs).length := by
  induction evs generalizing s with
  | nil => rfl
  | cons e evs ih =>
    rw [run_cons, ih]
    by_cases he : ∃ i, e = Event.load i true
    · obtain ⟨i, rfl⟩ := he
      simp only [step, loadedIds, List.length_cons]
      rw [(onload_fields s).2.2.2.2.2.2]
      omega
    · have hne : ∀ i, e ≠ Event.load i true := fun i h => he ⟨i, h⟩
      rw [(step_isLoading_of_ne_load s e hne).2]
      cases e with
      | progress p => rfl
      | paint => rfl
      | teardown => rfl
      | load i ok =>
        cases ok with
        | false => rfl
        | true => exact absurd rfl (hne i)

theorem step_latch (s : AppState) (e : Event) (h : s.isLoading = false) :
    (step s e).isLoading = false := by
  by_cases he : ∃ i, e = Event.load i true
  · obtain ⟨i, rfl⟩ := he
    simp only [step]
    rw [onload_isLoading]
    split
    · rfl
    · exact h
  · rw [(step_isLoading_of_ne_load s e (fun i hi => he ⟨i, hi⟩)).1]
    exact h

theorem run_latch (s : AppState) (evs : List Event) (h : s.isLoading = false) :
    (run s evs).isLoading = false := by
  induction evs generalizing s with
  | nil => exact h
  | cons e evs ih => exact ih (step s e) (step_latch s e h)

theorem mem_loadedIds {evs : List Event} {i : ℕ} :
    i ∈ loadedIds evs ↔ Event.load i true ∈ evs := by
  induction evs with
  | nil => simp [loadedIds]
  | cons e evs ih =>
    cases e with
    | progress p => simp [loadedIds, ih]
    | paint => simp [loadedIds, ih]
    | teardown => simp [loadedIds, ih]
    | load j ok =>
      cases ok with
      | false => simp [loadedIds, ih]
      | true => simp [loadedIds, ih, eq_comm]

theorem mem_resolvedIds {evs : List Event} {i : ℕ} :
    i ∈ resolvedIds evs ↔ ∃ ok, Event.load i ok ∈ evs := by
  induction evs with
  | nil => simp [resolvedIds]
  | cons e evs ih =>
    cases e with
    | progress p => simp [resolvedIds, ih]
    | paint => simp [resolvedIds, ih]
    | teardown => simp [resolvedIds, ih]
    | load j ok =>
      simp only [resolvedIds, List.mem_cons, ih, Event.load.injEq]
      constructor
      · rintro (h | ⟨ok', h⟩)
        · exact ⟨ok, Or.inl ⟨h, rfl⟩⟩
        · exact ⟨ok', Or.inr h⟩
      · rintro ⟨ok', (⟨h, _⟩ | h)⟩
        · exact Or.inl h
        · exact Or.inr ⟨ok', h⟩

theorem loadedIds_sublist (evs : List Event) :
    (loadedIds evs).Sublist (resolvedIds evs) := by
  induction evs with
  | nil => exact List.Sublist.slnil
  | cons e evs ih =>
    cases e with
    | progress p => exact ih
    | paint => exact ih
    | teardown => exact ih
    | load j ok =>
      cases ok with
      | false => exact List.Sublist.cons _ ih
      | true => exact List.Sublist.cons₂ _ ih

theorem loadedIds_length_lt {evs : List Event} {i : ℕ}
    (h : Event.load i false ∈ evs) :
    (loadedIds evs).length < (resolvedIds evs).length := by
  induction evs with
  | nil => simp at h
  | cons e evs ih =>
    have hle := (loadedIds_sublist evs).length_le
    cases e with
    | progress p =>
      simp only [List.mem_cons, reduceCtorEq, false_or] at h
      simpa [loadedIds, resolvedIds] using ih h
    | paint =>
      simp only [List.mem_cons, reduceCtorEq, false_or] at h
      simpa [loadedIds, resolvedIds] using ih h
    | teardown =>
      simp only [List.mem_cons, reduceCtorEq, false_or] at h
      simpa [loadedIds, resolvedIds] using ih h
    | load j ok =>
      cases ok with
      | false =>
        simp only [loadedIds, resolvedIds, List.length_cons]
        omega
      | true =>
        have h' : Event.load i false ∈ evs := by
          rcases List.mem_cons.mp h with h | h
          · simp at h
          · exact h
        simp only [loadedIds, resolvedIds, List.length_cons]
        have := ih h'
        omega

theorem nodup_length_le {l : List ℕ} (hn : l.Nodup) (hr : ∀ i ∈ l, i < totalFrames) :
    l.length ≤ 240 := by
  have hsub : l ⊆ List.range totalFrames := fun i hi => List.mem_range.mpr (hr i hi)
  have := (List.subperm_of_subset hn hsub).length_le
  simpa [totalFrames] using this

theorem nodup_full {l : List ℕ} (hn : l.Nodup) (hr : ∀ i ∈ l, i < totalFrames)
    (hlen : 240 ≤ l.length) : ∀ i, i < totalFrames → i ∈ l := by
  have hsub : l ⊆ List.range totalFrames := fun i hi => List.mem_range.mpr (hr i hi)
  have hperm : l.Perm (List.range totalFrames) :=
    (List.subperm_of_subset hn hsub).perm_of_length_le (by simpa [totalFrames] using hlen)
  intro i hi
  exact hperm.mem_iff.mpr (List.mem_range.mpr hi)

theorem full_length_ge {l : List ℕ} (h : ∀ i, i < totalFrames → i ∈ l) :
    240 ≤ l.length := by
  have hsub : List.range totalFrames ⊆ l := fun i hi => h i (List.mem_range.mp hi)
  have := (List.subperm_of_subset (List.nodup_range totalFrames) hsub).length_le
  simpa [totalFrames] using this

theorem isLoading_false_iff (h0 : ℕ) (evs : List Event) :
    (run (mount h0) evs).isLoading = false ↔ 240 ≤ (loadedIds evs).length := by
  have hinv : LoadInv (run (mount h0) evs) := loadInv_run (loadInv_mount h0) evs
  have hcount := run_loadedCount (mount h0) evs
  unfold LoadInv at hinv
  rw [totalToLoad_eq] at hinv
  have hm : (mount h0).loadedCount = 0 := rfl
  rw [hm, Nat.zero_add] at hcount
  rw [← hcount]
  constructor
  · intro h
    by_contra hlt
    have := hinv.mpr (by omega)
    rw [h] at this
    exact Bool.false_ne_true this
  · intro h
    cases hb : (run (mount h0) evs).isLoading with
    | false => rfl
    | true =>
      have := hinv.mp hb
      omega

/-! ## Shared steps towards the contract of the animator -/

theorem run_progress_paint (s : AppState) (hsub : s.subscribed = true) (p : ℚ) :
    (run s [Event.progress p, Event.paint]).currentFrame = frameIndex p := by
  have hstep : step s (Event.progress p) = onChange p s := by simp [step, hsub]
  have hpaint : ∀ t : AppState, step t Event.paint = paint t := fun _ => rfl
  rw [run_cons, run_cons, run_nil, hstep, hpaint]
  exact paint_last _ _ (s.nextHandle, p) (onChange_fields p s).2.2.2.2.2.2.2

theorem run_burst_paint {s : AppState} (hs : AnimInv s) (hsub : s.subscribed = true)
    (ps : List ℚ) (hne : ps ≠ []) :
    (run s (burst ps ++ [Event.paint])).frameUpdates = s.frameUpdates + 1 ∧
    (run s (burst ps ++ [Event.paint])).currentFrame = frameIndex (ps.getLast hne) ∧
    (run s (burst ps ++ [Event.paint])).pending = [] := by
  obtain ⟨⟨h, hp⟩, _, hu⟩ := run_burst hs hsub ps hne
  rw [run_append]
  simp only [run_cons, run_nil, step]
  obtain ⟨_, _, _, _, _, h6, h7⟩ := paint_fields (run s (burst ps))
  refine ⟨by rw [h7, hp, hu]; rfl, ?_, h6⟩
  exact paint_last _ [] (h, ps.getLast hne) (by rw [hp]; rfl)

theorem roundBinary64_le_rel {x : ℚ} (hx : 0 ≤ x) :
    roundBinary64 x ≤ x * (1 + 2 ^ (-53 : ℤ)) := by
  rcases lt_or_eq_of_le hx with h | h
  · rw [roundBinary64_pos h]; exact roundPos_le_rel h
  · rw [← h, roundBinary64_zero]; norm_num

/-- For each index `k` a binary64 value of the unit interval that is mapped to
it: `c / 256` with `c` the least integer such that `15 * c ≥ 16 * k`. -/
theorem frameIndex_slice_point (k : ℤ) (hk0 : 0 ≤ k) (hk1 : k ≤ 239) :
    IsBinary64 ((((16 * k + 14) / 15 : ℤ) : ℚ) * 2 ^ (-8 : ℤ)) ∧
    (0 : ℚ) ≤ (((16 * k + 14) / 15 : ℤ) : ℚ) * 2 ^ (-8 : ℤ) ∧
    (((16 * k + 14) / 15 : ℤ) : ℚ) * 2 ^ (-8 : ℤ) ≤ 1 ∧
    frameIndex ((((16 * k + 14) / 15 : ℤ) : ℚ) * 2 ^ (-8 : ℤ)) = k := by
  have hc0 : 0 ≤ (16 * k + 14) / 15 := by omega
  have hc1 : (16 * k + 14) / 15 ≤ 255 := by omega
  have hlo : 16 * k ≤ 15 * ((16 * k + 14) / 15) := by omega
  have hhi : 15 * ((16 * k + 14) / 15) ≤ 16 * k + 14 := by omega
  generalize (16 * k + 14) / 15 = c at hc0 hc1 hlo hhi
  have hc0q : (0 : ℚ) ≤ (c : ℚ) := by exact_mod_cast hc0
  have hc1q : (c : ℚ) ≤ 255 := by exact_mod_cast hc1
  have hloq : (16 : ℚ) * k ≤ 15 * c := by exact_mod_cast hlo
  have hhiq : (15 : ℚ) * c ≤ 16 * k + 14 := by exact_mod_cast hhi
  refine ⟨isBinary64_dyadic c (-8) (by rw [abs_lt]; constructor <;> omega) (by norm_num)
    (by norm_num), ?_, ?_, ?_⟩
  · have : (0 : ℚ) < 2 ^ (-8 : ℤ) := two_zpow_pos _
    positivity
  · norm_num
    linarith
  · have hx : (c : ℚ) * 2 ^ (-8 : ℤ) * 240 = ((15 * c : ℤ) : ℚ) * 2 ^ (-4 : ℤ) := by
      push_cast
      norm_num
      ring
    rw [frameIndex_eq, hx,
      roundBinary64_dyadic (15 * c) (-4) (by rw [abs_lt]; constructor <;> omega)]
    have hfl : ⌊((15 * c : ℤ) : ℚ) * 2 ^ (-4 : ℤ)⌋ = k := by
      apply Int.floor_eq_iff.mpr
      push_cast
      norm_num
      constructor <;> linarith
    rw [hfl]
    exact min_eq_left hk1

/-! ## The claims -/

/-- C1, as stated, fails: the JavaScript number `0.7` lies in the unit
interval, and the handler publishes the index `168` for it, while
`min (floor (p * 240)) 239` is `167`: the product is rounded to binary64, here
up to `168`, before the floor is taken. The number `0.3` gives `72` against
`71` in the same way. -/
theorem C1_counterexample :
    roundBinary64 (7 / 10) = binary64_0_7 ∧
    IsBinary64 binary64_0_7 ∧ (0 ≤ binary64_0_7 ∧ binary64_0_7 ≤ 1) ∧
    frameIndex binary64_0_7 = 168 ∧
    (run (mount 1) [Event.progress binary64_0_7, Event.paint]).currentFrame = 168 ∧
    min ⌊binary64_0_7 * 240⌋ 239 = 167 ∧
    frameIndex binary64_0_3 = 72 ∧ min ⌊binary64_0_3 * 240⌋ 239 = 71 := by
  refine ⟨round_0_7, isBinary64_0_7,
    ⟨by norm_num [binary64_0_7], by norm_num [binary64_0_7]⟩,
    frameIndex_0_7, ?_, formula_0_7, frameIndex_0_3, formula_0_3⟩
  rw [run_progress_paint _ rfl, frameIndex_0_7]

/-- C1, amended: for every progress value `p` with `0 ≤ p ≤ 1`, the frame index
computed by the scheduled update is `min (floor (fl (p * 240))) 239`, where
`fl (p * 240)` is the product rounded to binary64, both as the value of
`frameIndex` and as the `currentFrame` published when the handler receives `p`
and the scheduled callback then runs, in any state of a component that has not
been torn down. It lies in `0 .. 239`; it is `min (floor (p * 240)) 239` or one
more, and equals it whenever `p * 240` is a binary64 value; and the indices of
the numbers `0`, `0.5`, `1` and `0.999999` are `0`, `120`, `239` and `239`. -/
theorem C1_frameIndex_rounded (p : ℚ) (hp0 : 0 ≤ p) (hp1 : p ≤ 1)
    (h0 : ℕ) (evs : List Event) (hev : Event.teardown ∉ evs) :
    frameIndex p = min ⌊roundBinary64 (p * 240)⌋ 239 ∧
    (run (mount h0) (evs ++ [Event.progress p, Event.paint])).currentFrame
      = min ⌊roundBinary64 (p * 240)⌋ 239 ∧
    (0 ≤ frameIndex p ∧ frameIndex p ≤ 239) ∧
    (min ⌊p * 240⌋ 239 ≤ frameIndex p ∧ frameIndex p ≤ min ⌊p * 240⌋ 239 + 1) ∧
    (IsBinary64 (p * 240) → frameIndex p = min ⌊p * 240⌋ 239) ∧
    (frameIndex 0 = 0 ∧ frameIndex (1 / 2) = 120 ∧ frameIndex 1 = 239 ∧
      frameIndex binary64_0_999999 = 239) := by
  refine ⟨frameIndex_eq p, ?_, ⟨frameIndex_nonneg hp0, frameIndex_le p⟩,
    frameIndex_near_formula hp0 hp1, ?_, frameIndex_values⟩
  · rw [run_append, ← frameIndex_eq]
    exact run_progress_paint _ (by rw [run_subscribed _ _ hev]; rfl) p
  · intro h
    rw [frameIndex_eq, h.1]

/-- Witness of amended C1 at the number `0.7`, first handle `1`, no earlier
events: the published index is `168`. -/
theorem C1_frameIndex_rounded_witness :
    (0 ≤ binary64_0_7 ∧ binary64_0_7 ≤ 1) ∧
    (run (mount 1) ([] ++ [Event.progress binary64_0_7, Event.paint])).currentFrame
      = min ⌊roundBinary64 (binary64_0_7 * 240)⌋ 239 ∧
    min ⌊binary64_0_7 * 240⌋ 239 ≤ frameIndex binary64_0_7 :=
  have h0 : 0 ≤ binary64_0_7 := by norm_num [binary64_0_7]
  have h1 : binary64_0_7 ≤ 1 := by norm_num [binary64_0_7]
  ⟨⟨h0, h1⟩, (C1_frameIndex_rounded binary64_0_7 h0 h1 1 [] (by simp)).2.1,
    (C1_frameIndex_rounded binary64_0_7 h0 h1 1 [] (by simp)).2.2.2.1.1⟩

/-- C2, as stated, fails: the progress value `-1` yields the index `-240`,
which is below `0`; delivered to a freshly mounted component and painted, it
becomes `currentFrame`, and the lookup `frames[-240]` is undefined. -/
theorem C2_counterexample :
    frameIndex (-1) = -240 ∧
    ¬ (0 ≤ frameIndex (-1) ∧ frameIndex (-1) ≤ 239) ∧
    (run (mount 1) [Event.progress (-1), Event.paint]).currentFrame = -240 ∧
    frameAt (-240) = none := by
  have h : frameIndex (-1) = -240 := by
    rw [frameIndex_of_int (-240) (by norm_num) (by norm_num)]; rfl
  refine ⟨h, ?_, ?_, ?_⟩
  · rw [h]; norm_num
  · rw [run_progress_paint _ rfl, h]
  · simp [frameAt]

/-- C2, amended: the handler clamps the index from above only. For every
progress value `p` the index is at most `239`; it is at least `0` whenever
`p ≥ 0`, which covers every `p > 1`; and it is negative whenever `p < 0`. -/
theorem C2_clamp_above (p : ℚ) :
    frameIndex p ≤ 239 ∧
    (0 ≤ p → 0 ≤ frameIndex p ∧ frameIndex p ≤ 239) ∧
    (1 < p → frameIndex p = 239) ∧
    (p < 0 → frameIndex p < 0) := by
  refine ⟨frameIndex_le p, fun h => ⟨frameIndex_nonneg h, frameIndex_le p⟩, ?_, ?_⟩
  · intro h
    rw [frameIndex_eq]
    apply min_eq_right
    apply Int.le_floor.mpr
    exact int_le_roundBinary64 239 (by norm_num) (by push_cast; linarith)
  · intro h
    rw [frameIndex_eq]
    apply lt_of_le_of_lt (min_le_left _ _)
    apply Int.floor_lt.mpr
    push_cast
    exact roundBinary64_lt_zero (by linarith)

/-- Witness of amended C2 at the out-of-range value `p = 3/2`. -/
theorem C2_clamp_above_witness :
    (0 : ℚ) ≤ 3 / 2 ∧ (1 : ℚ) < 3 / 2 ∧
      (0 ≤ frameIndex (3 / 2) ∧ frameIndex (3 / 2) ≤ 239) ∧ frameIndex (3 / 2) = 239 :=
  ⟨by norm_num, by norm_num, (C2_clamp_above (3 / 2)).2.1 (by norm_num),
    (C2_clamp_above (3 / 2)).2.2.1 (by norm_num)⟩

/-- C7: the frame index is monotone on the unit interval: for
`0 ≤ p1 ≤ p2 ≤ 1` the index computed for `p1` is at most the one computed for
`p2`, and likewise `min (floor (p1 * 240)) 239 ≤ min (floor (p2 * 240)) 239`. -/
theorem C7_frameIndex_monotone (p1 p2 : ℚ) (h0 : 0 ≤ p1) (h12 : p1 ≤ p2) (h1 : p2 ≤ 1) :
    frameIndex p1 ≤ frameIndex p2 ∧
    min ⌊p1 * 240⌋ 239 ≤ min ⌊p2 * 240⌋ 239 :=
  ⟨frameIndex_mono h12, min_le_min (Int.floor_mono (by linarith)) le_rfl⟩

/-- Witness of C7 at the numbers `0.3` and `0.7`. -/
theorem C7_frameIndex_monotone_witness :
    (0 ≤ binary64_0_3 ∧ binary64_0_3 ≤ binary64_0_7 ∧ binary64_0_7 ≤ 1) ∧
      frameIndex binary64_0_3 ≤ frameIndex binary64_0_7 :=
  have h0 : 0 ≤ binary64_0_3 := by norm_num [binary64_0_3]
  have h12 : binary64_0_3 ≤ binary64_0_7 := by norm_num [binary64_0_3, binary64_0_7]
  have h1 : binary64_0_7 ≤ 1 := by norm_num [binary64_0_7]
  ⟨⟨h0, h12, h1⟩, (C7_frameIndex_monotone binary64_0_3 binary64_0_7 h0 h12 h1).1⟩

/-- C10, as stated, fails: the JavaScript number `0.7` satisfies
`167/240 ≤ p < 168/240`, yet its index is `168`, not `167`; so neither the
equivalence for `k = 167` nor the one for `k = 168` holds at this `p`. -/
theorem C10_counterexample :
    IsBinary64 binary64_0_7 ∧ (0 ≤ binary64_0_7 ∧ binary64_0_7 ≤ 1) ∧
    ((167 : ℚ) / 240 ≤ binary64_0_7 ∧ binary64_0_7 < ((167 : ℚ) + 1) / 240) ∧
    frameIndex binary64_0_7 = 168 ∧
    ¬ (frameIndex binary64_0_7 = 167 ↔
        (167 : ℚ) / 240 ≤ binary64_0_7 ∧ binary64_0_7 < ((167 : ℚ) + 1) / 240) ∧
    ¬ (frameIndex binary64_0_7 = 168 ↔
        (168 : ℚ) / 240 ≤ binary64_0_7 ∧ binary64_0_7 < ((168 : ℚ) + 1) / 240) := by
  have hin : (167 : ℚ) / 240 ≤ binary64_0_7 ∧ binary64_0_7 < ((167 : ℚ) + 1) / 240 :=
    ⟨by norm_num [binary64_0_7], by norm_num [binary64_0_7]⟩
  refine ⟨isBinary64_0_7, ⟨by norm_num [binary64_0_7], by norm_num [binary64_0_7]⟩, hin,
    frameIndex_0_7, ?_, ?_⟩
  · intro h
    have := h.mpr hin
    rw [frameIndex_0_7] at this
    exact absurd this (by decide)
  · intro h
    have := (h.mp frameIndex_0_7).1
    norm_num [binary64_0_7] at this

/-- C10, amended: every frame is reachable and owns a slice of the scroll
range of width `1/240` up to the rounding of the product. For `0 ≤ k ≤ 239` and
`0 ≤ p ≤ 1`, with `fl (p * 240)` the binary64 product: the index of `p` is `k`
exactly when `k ≤ fl (p * 240) < k + 1` if `k < 239`, and exactly when
`239 ≤ fl (p * 240)` if `k = 239`. In terms of `p`: `k/240 ≤ p < (k+1)/240`
gives index `k` or `k + 1` if `k < 239`, and `239/240 ≤ p` gives index `239`;
index `k` gives `k/240 ≤ p * (1 + 2^(-53))` and, if `k < 239`,
`p < (k+1)/240`. Some binary64 value of the unit interval has index `k`. -/
theorem C10_slices_rounded (k : ℤ) (hk0 : 0 ≤ k) (hk1 : k ≤ 239)
    (p : ℚ) (hp0 : 0 ≤ p) (hp1 : p ≤ 1) :
    (k < 239 → (frameIndex p = k ↔
      (k : ℚ) ≤ roundBinary64 (p * 240) ∧ roundBinary64 (p * 240) < (k : ℚ) + 1)) ∧
    (k = 239 → (frameIndex p = k ↔ (239 : ℚ) ≤ roundBinary64 (p * 240))) ∧
    (k < 239 → (k : ℚ) / 240 ≤ p ∧ p < ((k : ℚ) + 1) / 240 →
      frameIndex p = k ∨ frameIndex p = k + 1) ∧
    (k = 239 → (239 : ℚ) / 240 ≤ p → frameIndex p = k) ∧
    (frameIndex p = k →
      (k : ℚ) / 240 ≤ p * (1 + 2 ^ (-53 : ℤ)) ∧ (k < 239 → p < ((k : ℚ) + 1) / 240)) ∧
    (∃ q : ℚ, IsBinary64 q ∧ 0 ≤ q ∧ q ≤ 1 ∧ frameIndex q = k) := by
  have hx0 : (0 : ℚ) ≤ p * 240 := by positivity
  refine ⟨?_, ?_, ?_, ?_, ?_, ?_⟩
  · intro hk
    rw [frameIndex_eq]
    have hmin : min ⌊roundBinary64 (p * 240)⌋ 239 = k ↔ ⌊roundBinary64 (p * 240)⌋ = k := by
      constructor <;> intro h <;> omega
    rw [hmin, Int.floor_eq_iff]
  · intro hk
    subst hk
    rw [frameIndex_eq]
    have hmin : min ⌊roundBinary64 (p * 240)⌋ 239 = 239 ↔
        (239 : ℤ) ≤ ⌊roundBinary64 (p * 240)⌋ := by
      constructor <;> intro h <;> omega
    rw [hmin, Int.le_floor]
    push_cast
    rfl
  · intro hk ⟨h1, h2⟩
    have hfl : ⌊p * 240⌋ = k := by
      apply Int.floor_eq_iff.mpr
      rw [div_le_iff₀ (by norm_num)] at h1
      rw [lt_div_iff₀ (by norm_num)] at h2
      exact ⟨h1, h2⟩
    obtain ⟨h3, h4⟩ := frameIndex_near_formula hp0 hp1
    rw [hfl] at h3 h4
    omega
  · intro hk h1
    subst hk
    rw [div_le_iff₀ (by norm_num)] at h1
    have h2 : ((239 : ℤ) : ℚ) ≤ roundBinary64 (p * 240) :=
      int_le_roundBinary64 239 (by norm_num) (by push_cast; exact h1)
    have h3 := Int.le_floor.mpr h2
    rw [frameIndex_eq]
    omega
  · intro hidx
    rw [frameIndex_eq] at hidx
    have hle : k ≤ ⌊roundBinary64 (p * 240)⌋ := by omega
    have hq : (k : ℚ) ≤ roundBinary64 (p * 240) := Int.le_floor.mp hle
    constructor
    · rw [div_le_iff₀ (by norm_num)]
      calc (k : ℚ) ≤ roundBinary64 (p * 240) := hq
        _ ≤ p * 240 * (1 + 2 ^ (-53 : ℤ)) := roundBinary64_le_rel hx0
        _ = p * (1 + 2 ^ (-53 : ℤ)) * 240 := by ring
    · intro hk
      have hfl : ⌊roundBinary64 (p * 240)⌋ = k := by omega
      have hlt : roundBinary64 (p * 240) < (k : ℚ) + 1 := (Int.floor_eq_iff.mp hfl).2
      rw [lt_div_iff₀ (by norm_num)]
      by_contra hge
      push_neg at hge
      have := int_le_roundBinary64 (x := p * 240) (k + 1) (by rw [abs_lt]; constructor <;> omega)
        (by push_cast; exact hge)
      push_cast at this
      linarith
  · exact ⟨_, frameIndex_slice_point k hk0 hk1⟩

/-- Witness of amended C10 at `k = 167` and the number `0.7`, which lies in
the slice of `167` and has index `168`. -/
theorem C10_slices_rounded_witness :
    (frameIndex binary64_0_7 = 167 ∨ frameIndex binary64_0_7 = 167 + 1) ∧
    (∃ q : ℚ, IsBinary64 q ∧ 0 ≤ q ∧ q ≤ 1 ∧ frameIndex q = 167) :=
  have h0 : 0 ≤ binary64_0_7 := by norm_num [binary64_0_7]
  have h1 : binary64_0_7 ≤ 1 := by norm_num [binary64_0_7]
  ⟨(C10_slices_rounded 167 (by norm_num) (by norm_num) binary64_0_7 h0 h1).2.2.1
      (by norm_num) ⟨by norm_num [binary64_0_7], by norm_num [binary64_0_7]⟩,
   (C10_slices_rounded 167 (by norm_num) (by norm_num) binary64_0_7 h0 h1).2.2.2.2.2⟩

set_option maxRecDepth 1000000 in
/-- C8: the `frames` table has exactly 240 entries, and the entry at internal
index `i < 240` is the base path, then the three decimal digits of `i + 1`
(the number left-padded with `0` to three characters), then `.jpg`; the
first entry ends in `ezgif-frame-001.jpg`, the last in `ezgif-frame-240.jpg`. -/
theorem C8_frames_table (i : ℕ) (hi : i < 240) :
    frames.length = 240 ∧
    frames[i]? = some ("/ezgif-59835d4e34a6e4b3-jpg/ezgif-frame-" ++ threeDigits (i + 1)
      ++ ".jpg") ∧
    (padStart (toString (i + 1)) 3 '0').length = 3 ∧
    frames[0]? = some "/ezgif-59835d4e34a6e4b3-jpg/ezgif-frame-001.jpg" ∧
    frames[239]? = some "/ezgif-59835d4e34a6e4b3-jpg/ezgif-frame-240.jpg" := by
  have hall : ∀ j : Fin 240,
      frames[j.val]? = some ("/ezgif-59835d4e34a6e4b3-jpg/ezgif-frame-"
        ++ threeDigits (j.val + 1) ++ ".jpg") ∧
      (padStart (toString (j.val + 1)) 3 '0').length = 3 := by decide
  exact ⟨by simp [frames, totalFrames], (hall ⟨i, hi⟩).1, (hall ⟨i, hi⟩).2,
    by decide, by decide⟩

/-- Witness of C8 at the internal index `41`, whose file is number `042`. -/
theorem C8_frames_table_witness :
    frames[41]? = some ("/ezgif-59835d4e34a6e4b3-jpg/ezgif-frame-" ++ threeDigits (41 + 1)
      ++ ".jpg") :=
  (C8_frames_table 41 (by decide)).2.1

/-- C9: in every state reached from the mounted component by events whose
progress values lie in the unit interval, `currentFrame` is an integer in
`0 .. 239`, so the render-time lookup `frames[currentFrame]` yields a path;
at progress `1` the index is `239` and the lookup yields the last frame. -/
theorem C9_lookup_in_bounds (h0 : ℕ) (evs : List Event) (hu : ProgressInUnit evs) :
    (0 ≤ (run (mount h0) evs).currentFrame ∧ (run (mount h0) evs).currentFrame ≤ 239) ∧
    frameAt (run (mount h0) evs).currentFrame
      = some (frameUrl (run (mount h0) evs).currentFrame.toNat) ∧
    (run (mount h0) [Event.progress 1, Event.paint]).currentFrame = 239 ∧
    frameAt 239 = some "/ezgif-59835d4e34a6e4b3-jpg/ezgif-frame-240.jpg" := by
  have hinv : FrameInv (run (mount h0) evs) :=
    frameInv_run (frameInv_mount h0) evs (fun p hp => (hu p hp).1)
  refine ⟨hinv.1, frameAt_inRange hinv.1.1 hinv.1.2, ?_, ?_⟩
  · rw [run_progress_paint _ rfl]
    exact frameIndex_values.2.2.1
  · rw [frameAt_inRange (by norm_num) (by norm_num)]
    decide

/-- Witness of C9 on the stream `0, 1/2, paint, 1, paint`. -/
theorem C9_lookup_in_bounds_witness :
    ProgressInUnit [Event.progress 0, Event.progress (1 / 2), Event.paint,
      Event.progress 1, Event.paint] ∧
    (0 ≤ (run (mount 1) [Event.progress 0, Event.progress (1 / 2), Event.paint,
      Event.progress 1, Event.paint]).currentFrame ∧
     (run (mount 1) [Event.progress 0, Event.progress (1 / 2), Event.paint,
      Event.progress 1, Event.paint]).currentFrame ≤ 239) :=
  have hu : ProgressInUnit [Event.progress 0, Event.progress (1 / 2), Event.paint,
      Event.progress 1, Event.paint] := by
    intro p hp
    simp only [List.mem_cons, Event.progress.injEq, reduceCtorEq, List.mem_nil_iff,
      or_false, false_or] at hp
    rcases hp with h | h | h <;> subst h <;> norm_num
  ⟨hu, (C9_lookup_in_bounds 1 _ hu).1⟩

/-- C4, as stated, fails in its formula: the burst `0, 0.7` delivered to a
freshly mounted component within one paint window applies exactly one update,
computed from the last value, but that update sets `currentFrame` to `168`,
while `min (floor (p_k * 240)) 239` is `167` for the last value `p_k = 0.7`. -/
theorem C4_counterexample :
    IsBinary64 binary64_0_7 ∧
    (run (run (mount 1) []) (burst [0, binary64_0_7] ++ [Event.paint])).frameUpdates = 1 ∧
    (run (run (mount 1) []) (burst [0, binary64_0_7] ++ [Event.paint])).currentFrame = 168 ∧
    min ⌊([0, binary64_0_7].getLast (List.cons_ne_nil _ _)) * 240⌋ 239 = 167 := by
  obtain ⟨h1, h2, _⟩ := run_burst_paint (animInv_mount (by decide : (1 : ℕ) ≠ 0))
    (rfl : (run (mount 1) []).subscribed = true) [0, binary64_0_7] (List.cons_ne_nil _ _)
  refine ⟨isBinary64_0_7, h1, ?_, ?_⟩
  · rw [run_nil, h2]
    simpa using frameIndex_0_7
  · simpa using formula_0_7

/-- C4, amended: with non-zero scheduler handles, in any state reached without
a teardown, a non-empty burst of progress values followed by one paint applies
exactly one frame-index update, which sets `currentFrame` to
`min (floor (fl (p_k * 240))) 239` for the last value `p_k` of the burst, with
`fl (p_k * 240)` the binary64 product, and leaves no callback queued. -/
theorem C4_coalescing_rounded (h0 : ℕ) (hh : h0 ≠ 0) (evs : List Event)
    (hev : Event.teardown ∉ evs) (ps : List ℚ) (hne : ps ≠ []) :
    (run (run (mount h0) evs) (burst ps ++ [Event.paint])).frameUpdates
      = (run (mount h0) evs).frameUpdates + 1 ∧
    (run (run (mount h0) evs) (burst ps ++ [Event.paint])).currentFrame
      = min ⌊roundBinary64 (ps.getLast hne * 240)⌋ 239 ∧
    (run (run (mount h0) evs) (burst ps ++ [Event.paint])).pending = [] := by
  have hs : AnimInv (run (mount h0) evs) := animInv_run (animInv_mount hh) evs
  have hsub : (run (mount h0) evs).subscribed = true := by
    rw [run_subscribed _ _ hev]; rfl
  obtain ⟨h1, h2, h3⟩ := run_burst_paint hs hsub ps hne
  exact ⟨h1, by rw [h2, frameIndex_eq], h3⟩

/-- Witness of amended C4: the burst `0, 0.1, 0.1, 0.5, 1` of JavaScript
numbers delivered to a freshly mounted component within one paint window
applies one update and ends with `currentFrame = 239`. -/
theorem C4_coalescing_rounded_witness :
    (run (run (mount 1) [])
      (burst [0, binary64_0_1, binary64_0_1, 1 / 2, 1] ++ [Event.paint])).frameUpdates = 1 ∧
    (run (run (mount 1) [])
      (burst [0, binary64_0_1, binary64_0_1, 1 / 2, 1] ++ [Event.paint])).currentFrame
      = 239 := by
  obtain ⟨h1, h2, _⟩ := C4_coalescing_rounded 1 (by decide) [] (by simp)
    [0, binary64_0_1, binary64_0_1, 1 / 2, 1] (by simp)
  refine ⟨h1, ?_⟩
  rw [h2, ← frameIndex_eq]
  simpa using frameIndex_values.2.2.1

/-- C6: with non-zero scheduler handles, after any sequence of events followed
by teardown no scheduled callback is queued, and whatever events follow,
`currentFrame` keeps its value, no update is applied and the queue stays
empty. -/
theorem C6_teardown (h0 : ℕ) (hh : h0 ≠ 0) (evs later : List Event) :
    (run (mount h0) (evs ++ [Event.teardown])).pending = [] ∧
    (run (run (mount h0) (evs ++ [Event.teardown])) later).currentFrame
      = (run (mount h0) (evs ++ [Event.teardown])).currentFrame ∧
    (run (run (mount h0) (evs ++ [Event.teardown])) later).frameUpdates
      = (run (mount h0) (evs ++ [Event.teardown])).frameUpdates ∧
    (run (run (mount h0) (evs ++ [Event.teardown])) later).pending = [] := by
  have hs : AnimInv (run (mount h0) evs) := animInv_run (animInv_mount hh) evs
  have htd : TornDown (run (mount h0) (evs ++ [Event.teardown])) := by
    rw [run_append]
    exact ⟨(cleanup_fields _).2.2.2.1, (animInv_cleanup hs).2⟩
  obtain ⟨k1, k2, k3⟩ := tornDown_run htd later
  exact ⟨htd.2, k2, k3, k1.2⟩

/-- Witness of C6: a progress value is pending at teardown; a later progress
value and paint change nothing. -/
theorem C6_teardown_witness :
    (1 : ℕ) ≠ 0 ∧
    (run (mount 1) ([Event.progress (1 / 2)] ++ [Event.teardown])).pending = [] ∧
    (run (run (mount 1) ([Event.progress (1 / 2)] ++ [Event.teardown]))
        [Event.progress 1, Event.paint]).currentFrame
      = (run (mount 1) ([Event.progress (1 / 2)] ++ [Event.teardown])).currentFrame :=
  ⟨by decide,
   (C6_teardown 1 (by decide) [Event.progress (1 / 2)] [Event.progress 1, Event.paint]).1,
   (C6_teardown 1 (by decide) [Event.progress (1 / 2)] [Event.progress 1, Event.paint]).2.1⟩

/-- C5: when every image completes at most once, the completed counter never
exceeds 240, it equals the number of successful loads so far, `isLoading` is
`true` in every state with counter below 240 and `false` exactly when the
counter is 240; and once `isLoading` is `false`, no further event of the
component (load completion, progress, paint or teardown) makes it `true`
again. -/
theorem C5_ready_latch (h0 : ℕ) (evs : List Event)
    (hn : (resolvedIds evs).Nodup) (hr : ∀ i ∈ resolvedIds evs, i < totalFrames) :
    (run (mount h0) evs).loadedCount = (loadedIds evs).length ∧
    (run (mount h0) evs).loadedCount ≤ 240 ∧
    ((run (mount h0) evs).loadedCount < 240 → (run (mount h0) evs).isLoading = true) ∧
    ((run (mount h0) evs).isLoading = false ↔ (run (mount h0) evs).loadedCount = 240) ∧
    ((run (mount h0) evs).isLoading = false →
      ∀ later : List Event, (run (run (mount h0) evs) later).isLoading = false) := by
  have hcount : (run (mount h0) evs).loadedCount = (loadedIds evs).length := by
    have := run_loadedCount (mount h0) evs
    have hm : (mount h0).loadedCount = 0 := rfl
    rw [hm, Nat.zero_add] at this
    exact this
  have hle : (loadedIds evs).length ≤ 240 :=
    le_trans (loadedIds_sublist evs).length_le (nodup_length_le hn hr)
  have hiff := isLoading_false_iff h0 evs
  refine ⟨hcount, by rw [hcount]; exact hle, ?_, ?_, ?_⟩
  · intro hlt
    cases hb : (run (mount h0) evs).isLoading with
    | true => rfl
    | false =>
      have := hiff.mp hb
      omega
  · rw [hiff, hcount]
    omega
  · intro hfalse later
    exact run_latch _ later hfalse

set_option maxRecDepth 1000000 in
/-- Witness of C5: after all 240 images have loaded, the flag is down, and a
stray further completion, a progress value and a paint leave it down. -/
theorem C5_ready_latch_witness :
    (run (mount 1) (loadsWithFailure 240)).loadedCount = 240 ∧
    (run (mount 1) (loadsWithFailure 240)).isLoading = false ∧
    (run (run (mount 1) (loadsWithFailure 240))
      [Event.load 0 true, Event.progress 1, Event.paint]).isLoading = false :=
  have hn : (resolvedIds (loadsWithFailure 240)).Nodup := by decide
  have hr : ∀ i ∈ resolvedIds (loadsWithFailure 240), i < totalFrames := by decide
  have hc : (run (mount 1) (loadsWithFailure 240)).loadedCount = 240 := by decide
  have hf : (run (mount 1) (loadsWithFailure 240)).isLoading = false :=
    (C5_ready_latch 1 _ hn hr).2.2.2.1.mpr hc
  ⟨hc, hf, (C5_ready_latch 1 _ hn hr).2.2.2.2 hf _⟩

set_option maxRecDepth 1000000 in
/-- C3, as stated, fails: let all 240 images resolve once each, image `0`
with failure and the other 239 with success. The counter stops at 239 and
`isLoading` is still `true`: the failed load was not counted. -/
theorem C3_counterexample :
    resolvedIds (loadsWithFailure 0) = List.range 240 ∧
    Event.load 0 false ∈ loadsWithFailure 0 ∧
    (run (mount 1) (loadsWithFailure 0)).loadedCount = 239 ∧
    (run (mount 1) (loadsWithFailure 0)).isLoading = true := by
  refine ⟨by decide, by decide, by decide, by decide⟩

/-- C3, amended: a successful load increments the completed counter and a
failed load leaves the whole state as it is. With every image resolving at
most once, `isLoading` is `false` exactly when each of the 240 images has
resolved with success; if some image has resolved with failure, `isLoading`
is `true`. -/
theorem C3_success_only (h0 : ℕ) (evs : List Event)
    (hn : (resolvedIds evs).Nodup) (hr : ∀ i ∈ resolvedIds evs, i < totalFrames) :
    (∀ (s : AppState) (i : ℕ), step s (Event.load i false) = s) ∧
    (∀ (s : AppState) (i : ℕ),
      (step s (Event.load i true)).loadedCount = s.loadedCount + 1) ∧
    ((run (mount h0) evs).isLoading = false ↔
      ∀ i, i < totalFrames → Event.load i true ∈ evs) ∧
    ((∃ i, Event.load i false ∈ evs) → (run (mount h0) evs).isLoading = true) := by
  have hiff := isLoading_false_iff h0 evs
  have hsl := loadedIds_sublist evs
  have hn' : (loadedIds evs).Nodup := hn.sublist hsl
  have hr' : ∀ i ∈ loadedIds evs, i < totalFrames := fun i hi => hr i (hsl.subset hi)
  refine ⟨fun _ _ => rfl, fun s _ => (onload_fields s).2.2.2.2.2.2, ?_, ?_⟩
  · rw [hiff]
    constructor
    · intro hlen i hi
      exact mem_loadedIds.mp (nodup_full hn' hr' hlen i hi)
    · intro hall
      exact full_length_ge (fun i hi => mem_loadedIds.mpr (hall i hi))
  · rintro ⟨i, hi⟩
    cases hb : (run (mount h0) evs).isLoading with
    | true => rfl
    | false =>
      have h1 := hiff.mp hb
      have h2 := loadedIds_length_lt hi
      have h3 := nodup_length_le hn hr
      omega

set_option maxRecDepth 1000000 in
/-- Witness of amended C3 on the run in which image `0` fails and the other
239 images load: the flag stays up. -/
theorem C3_success_only_witness :
    (resolvedIds (loadsWithFailure 0)).Nodup ∧
    (∀ i ∈ resolvedIds (loadsWithFailure 0), i < totalFrames) ∧
    (run (mount 1) (loadsWithFailure 0)).isLoading = true :=
  have hn : (resolvedIds (loadsWithFailure 0)).Nodup := by decide
  have hr : ∀ i ∈ resolvedIds (loadsWithFailure 0), i < totalFrames := by decide
  ⟨hn, hr, (C3_success_only 1 _ hn hr).2.2.2 ⟨0, by decide⟩⟩

end DCIM

